import Mathlib

/-! Formal model of the Poche card-game simulation (src/game/src/main.rs).

The source is a Bevy ECS application.  We embed it shallowly:

* entities are natural numbers;
* component data of cards / sessions / tables / players is gathered into
  per-entity state records, stored in association lists whose list order
  models the (deterministic in our model) iteration order of the engine's
  queries and of `HashSet` / `HashMap` iteration;
* every system becomes a pure function on a `World` record.  Commands in
  the source are deferred to the end of a system; queries therefore read
  the pre-system snapshot.  The definitions below take care to read from
  the snapshot exactly where the source's queries do;
* `f32` coordinates are modelled as rationals.  The two genuinely
  irrational ingredients of the positioning engine, the square-root easing
  (`powf(0.5)`) and quaternion `slerp`, are supplied as parameters of the
  solver model (`SolverParams`): no claim depends on their values;
* `Instant` time stamps are modelled as rationals, with the tick's
  `Instant::now()` a parameter. -/

namespace Poche

/-- Entity identifiers (Bevy `Entity`): opaque stable ids, modelled as `Nat`. -/
abbrev Entity := Nat

/-- Card suit, as in the source. -/
inductive Suit
  | Spades | Hearts | Diamonds | Clubs
deriving DecidableEq

/-- Card rank, as in the source. -/
inductive Rank
  | Ace | Two | Three | Four | Five | Six | Seven | Eight | Nine | Ten
  | Jack | Queen | King
deriving DecidableEq

/-- `Rank::value`: the integer value used for score comparisons (Two=2 .. Ace=14). -/
def Rank.value : Rank → Nat
  | .Two => 2
  | .Three => 3
  | .Four => 4
  | .Five => 5
  | .Six => 6
  | .Seven => 7
  | .Eight => 8
  | .Nine => 9
  | .Ten => 10
  | .Jack => 11
  | .Queen => 12
  | .King => 13
  | .Ace => 14

/-- The immutable card value component. -/
structure Card where
  suit : Suit
  rank : Rank
deriving DecidableEq

/-- The thirteen ranks in the order the source lists them when building a deck. -/
def rankOrder : List Rank :=
  [.Ace, .Two, .Three, .Four, .Five, .Six, .Seven, .Eight, .Nine, .Ten,
   .Jack, .Queen, .King]

/-- `Card::get_new_deck`: the 52-card deck, suit-major in source order. -/
def Card.getNewDeck : List Card :=
  [Suit.Spades, Suit.Hearts, Suit.Diamonds, Suit.Clubs].foldl
    (fun acc s => acc ++ rankOrder.map (fun r => Card.mk s r)) []

/-- A 3-vector with rational coordinates (models bevy `Vec3`). -/
structure Vec3 where
  x : ℚ
  y : ℚ
  z : ℚ
deriving DecidableEq

def Vec3.add (a b : Vec3) : Vec3 := ⟨a.x + b.x, a.y + b.y, a.z + b.z⟩

def Vec3.sub (a b : Vec3) : Vec3 := ⟨a.x - b.x, a.y - b.y, a.z - b.z⟩

def Vec3.smul (a : Vec3) (q : ℚ) : Vec3 := ⟨a.x * q, a.y * q, a.z * q⟩

/-- `Vec3::Y * q`: a purely vertical vector. -/
def Vec3.yUp (q : ℚ) : Vec3 := ⟨0, q, 0⟩

def Vec3.cross (a b : Vec3) : Vec3 :=
  ⟨a.y * b.z - a.z * b.y, a.z * b.x - a.x * b.z, a.x * b.y - a.y * b.x⟩

/-- `Vec3::lerp`: `self + (rhs - self) * s`. -/
def Vec3.lerp (a b : Vec3) (t : ℚ) : Vec3 := a.add ((b.sub a).smul t)

/-- A quaternion with rational components (models bevy `Quat`). -/
structure Quat where
  x : ℚ
  y : ℚ
  z : ℚ
  w : ℚ
deriving DecidableEq

/-- The identity rotation; this is exactly `Quat::from_euler(XYZ, 0.0, 0.0, 0.0)`. -/
def Quat.ident : Quat := ⟨0, 0, 0, 1⟩

/-- Hamilton product of quaternions (models `Quat::mul`). -/
def Quat.mul (a b : Quat) : Quat :=
  ⟨a.w * b.x + a.x * b.w + a.y * b.z - a.z * b.y,
   a.w * b.y - a.x * b.z + a.y * b.w + a.z * b.x,
   a.w * b.z + a.x * b.y - a.y * b.x + a.z * b.w,
   a.w * b.w - a.x * b.x - a.y * b.y - a.z * b.z⟩

/-- Rotation of a vector by a unit quaternion: `v + w*t + u x t` with `t = 2 (u x v)`. -/
def Quat.rotate (q : Quat) (v : Vec3) : Vec3 :=
  let u : Vec3 := ⟨q.x, q.y, q.z⟩
  let t := (u.cross v).smul 2
  (v.add (t.smul q.w)).add (u.cross t)

/-- A transform: translation plus rotation (scale plays no role in the core). -/
structure Transform where
  translation : Vec3
  rotation : Quat
deriving DecidableEq

/-- `Transform::forward`: the local `-Z` axis rotated into world space. -/
def Transform.forwardVec (t : Transform) : Vec3 := t.rotation.rotate ⟨0, 0, -1⟩

/-- `Transform::right`: the local `X` axis rotated into world space. -/
def Transform.rightVec (t : Transform) : Vec3 := t.rotation.rotate ⟨1, 0, 0⟩

/-- The derived positioning behaviour component (`CardPositioningBehaviour`). -/
inductive CardPositioningBehaviour
  | InDeck | RevealedOnDeck | InHand | Played | InTakenTrick
deriving DecidableEq

/-- All components a card entity may carry, gathered into one record.
`inDeck` and `inHand` are `some index` when the tag component is present;
`played` and `trump` are presence flags of the marker components;
`owner` models `BelongsToPlayer`; `sleeping` models the presence of the
`Sleeping` rest marker; `travelStart` models `TravelTime`.  There is no
`InTakenTrick` placement component anywhere in the source (the name only
occurs as a variant of the derived behaviour enum), so no field for it
exists: a card can never carry it. -/
structure CardState where
  card : Card
  inDeck : Option Nat
  inHand : Option Nat
  played : Bool
  trump : Bool
  owner : Option Entity
  sleeping : Bool
  behaviour : Option CardPositioningBehaviour
  travelStart : Option ℚ
  transform : Transform
deriving DecidableEq

/-- The `Session` component: aggregate root of one game instance. -/
structure Session where
  tableId : Entity
  playerIds : List Entity
  cardIds : List Entity
deriving DecidableEq

/-- Components of a table entity: its transform, the `NeedsDealer` flag and
the `SessionRef` back-reference. -/
structure TableState where
  transform : Transform
  needsDealer : Bool
  sessionRef : Option Entity
deriving DecidableEq

/-- Components of a player entity: its transform and the `Dealer` marker. -/
structure PlayerState where
  transform : Transform
  dealer : Bool
deriving DecidableEq

/-- The world: per-kind association lists from entity id to component record. -/
structure World where
  cards : List (Entity × CardState)
  sessions : List (Entity × Session)
  tables : List (Entity × TableState)
  players : List (Entity × PlayerState)
deriving DecidableEq

/-- `DealCardsEvent`; the source notes a player may be listed repeatedly. -/
structure DealCardsEvent where
  sessionId : Entity
  playerIds : List Entity
deriving DecidableEq

/-- Association-list lookup by entity id (first matching entry). -/
def assocLookup {α : Type} (k : Entity) : List (Entity × α) → Option α
  | [] => none
  | (k', v) :: rest => if k' = k then some v else assocLookup k rest

/-- Association-list pointwise update of every entry with the given key. -/
def assocUpdate {α : Type} (k : Entity) (f : α → α)
    (l : List (Entity × α)) : List (Entity × α) :=
  l.map (fun kv => if kv.1 = k then (kv.1, f kv.2) else kv)

/-- Apply a component update to one card entity (a batch of `commands` on it). -/
def setCard (w : World) (e : Entity) (f : CardState → CardState) : World :=
  { w with cards := assocUpdate e f w.cards }

/-- Fold a per-element card update over a work list: each element `b` updates
the card entity `idf b` with the function `uf b`.  All the per-card loops of
the source's systems take this shape. -/
def foldSet {β : Type} (idf : β → Entity) (uf : β → CardState → CardState)
    (l : List β) (w : World) : World :=
  l.foldl (fun acc b => setCard acc (idf b) (uf b)) w

/-- Stable insertion into a key-sorted list: the new element goes before the
first element of strictly greater key, hence after existing equal keys. -/
def insertByKey {α : Type} (key : α → Int) (a : α) : List α → List α
  | [] => [a]
  | b :: bs => if key a ≤ key b then a :: b :: bs else b :: insertByKey key a bs

/-- Stable sort by an integer key, ascending (models `itertools::sorted_by_key`). -/
def sortByKey {α : Type} (key : α → Int) : List α → List α
  | [] => []
  | a :: as => insertByKey key a (sortByKey key as)

/-- Truncation toward zero, the semantics of Rust's `as i32` float cast. -/
def truncQ (q : ℚ) : Int := if 0 ≤ q then ⌊q⌋ else ⌈q⌉

/-! ### The dealing distributor (`handle_deal_cards_events`) -/

/-- One step of building the hand-size map: `*map.entry(player).or_insert(0) += 1`. -/
def bumpCount : List (Entity × Nat) → Entity → List (Entity × Nat)
  | [], p => [(p, 1)]
  | (q, n) :: rest, p =>
    if q = p then (q, n + 1) :: rest else (q, n) :: bumpCount rest p

/-- The pre-system hand-size snapshot: one count per owner, over all entities
carrying `Card`, `BelongsToPlayer` and `InHand` (the source's
`cards_in_hands_query` fold). -/
def handSizes (w : World) : List (Entity × Nat) :=
  w.cards.foldl
    (fun m ec =>
      match ec.2.owner, ec.2.inHand with
      | some p, some _ => bumpCount m p
      | _, _ => m) []

/-- `hand_sizes.get_mut(player_id).map(|size| *size += 1)`: increments the
count of a player already present in the map and silently does nothing for an
absent player. -/
def incIfPresent (m : List (Entity × Nat)) (p : Entity) : List (Entity × Nat) :=
  m.map (fun qn => if qn.1 = p then (qn.1, qn.2 + 1) else qn)

/-- The session's still-in-deck cards paired with the `y` coordinate of their
transform (the source's `cards_in_decks_query` filter over `session.card_ids`). -/
def deckYPairs (w : World) (s : Session) : List (Entity × ℚ) :=
  s.cardIds.filterMap (fun cid =>
    match assocLookup cid w.cards with
    | none => none
    | some c => if c.inDeck.isSome then some (cid, c.transform.translation.y) else none)

/-- `top_cards`: in-deck cards sorted ascending by the quantised height
`(1000.0 * y) as i32`, then reversed, projected to ids — physically topmost
first. -/
def topCards (w : World) (s : Session) : List Entity :=
  ((sortByKey (fun py => truncQ (1000 * py.2)) (deckYPairs w s)).reverse).map (·.1)

/-- Modelled from the spec: the spec claims deck order is computed by sorting
the session's still-in-deck cards by their *stacking index* ascending and
walking from the end.  This definition follows the spec's words (not the
source, which sorts by physical height) and exists only to be compared with
`topCards`. -/
def topCardsSpec (w : World) (s : Session) : List Entity :=
  ((sortByKey (fun pc : Entity × Nat => (pc.2 : Int))
      (s.cardIds.filterMap (fun cid =>
        match assocLookup cid w.cards with
        | none => none
        | some c =>
          match c.inDeck with
          | some i => some (cid, i)
          | none => none))).reverse).map (·.1)

/-- The per-card effect of being dealt: leave the deck, belong to the player,
enter the hand at the given index, drop the rest marker. -/
def dealUpd (p : Entity) (sz : Nat) (c : CardState) : CardState :=
  { c with inDeck := none, owner := some p, inHand := some sz, sleeping := false }

/-- Deal one (player, card) pair: the hand index comes from the current count
map (`unwrap_or(&0)`), which is then incremented only if the player is present. -/
def applyDealPair (st : World × List (Entity × Nat)) (pr : Entity × Entity) :
    World × List (Entity × Nat) :=
  let sz := (assocLookup pr.1 st.2).getD 0
  (setCard st.1 pr.2 (dealUpd pr.1 sz), incIfPresent st.2 pr.1)

/-- Process one `DealCardsEvent`.  All queries read the pre-system snapshot
`w0` (commands are deferred), while the command effects and the local count
map accumulate in `st`. -/
def applyDealEvent (w0 : World) (st : World × List (Entity × Nat))
    (ev : DealCardsEvent) : World × List (Entity × Nat) :=
  match assocLookup ev.sessionId w0.sessions with
  | none => st
  | some s => (ev.playerIds.zip (topCards w0 s)).foldl applyDealPair st

/-- The insufficient-cards warning condition of one event
(`players.len() > top_cards.len()`). -/
def insufficientWarn (w : World) (ev : DealCardsEvent) : Bool :=
  match assocLookup ev.sessionId w.sessions with
  | none => false
  | some s => (topCards w s).length < ev.playerIds.length

/-- `handle_deal_cards_events`: one tick of the dealing distributor over the
batch of pending events. -/
def dealCards (w : World) (events : List DealCardsEvent) : World :=
  match events with
  | [] => w
  | _ => (events.foldl (applyDealEvent w) (w, handSizes w)).1

/-! ### Deck spawning (`handle_spawn_deck_events`) -/

/-- The component record of a freshly spawned deck card: only the `InDeck`
placement tag, no owner, no behaviour, identity rotation, stacked at the deck
position.  The accumulated `y += y_increment` is modelled as `i * yInc`. -/
def newCardState (card : Card) (i : Nat) (deckPos : Vec3) (yInc : ℚ) : CardState :=
  { card := card, inDeck := some i, inHand := none, played := false,
    trump := false, owner := none, sleeping := false, behaviour := none,
    travelStart := none,
    transform := ⟨deckPos.add (Vec3.yUp ((i : ℚ) * yInc)), Quat.ident⟩ }

/-- `handle_spawn_deck_events` for one event: spawn the 52 cards (with the
supplied fresh entity ids) and insert them into the session's card set.
Missing session or table: warn and do nothing. -/
def spawnDeck (tableHalfHeight cardHalfY yInc : ℚ) (w : World)
    (sessionId : Entity) (freshIds : List Entity) : World :=
  match assocLookup sessionId w.sessions with
  | none => w
  | some s =>
    match assocLookup s.tableId w.tables with
    | none => w
    | some tt =>
      let deckPos := tt.transform.translation.add (Vec3.yUp (tableHalfHeight + cardHalfY))
      let spawned := (Card.getNewDeck.enum.zip freshIds).map
        (fun ic => (ic.2, newCardState ic.1.2 ic.1.1 deckPos yInc))
      { w with cards := w.cards ++ spawned,
               sessions := assocUpdate sessionId
                 (fun s' => { s' with cardIds := s'.cardIds ++ spawned.map (·.1) })
                 w.sessions }

/-! ### Full reset (`handle_shuffle_back_in_key_press`) -/

/-- The per-card effect of the reset: drop `InHand`, `Played`, `Trump` and
`BelongsToPlayer`, re-enter the deck at the enumeration index, wake up. -/
def resetUpd (i : Nat) (c : CardState) : CardState :=
  { c with inHand := none, played := false, trump := false, owner := none,
           inDeck := some i, sleeping := false }

/-- Move all of one session's cards back into its deck, indices following the
enumeration order of the session's card-id set. -/
def shuffleBackInSession (w : World) (s : Session) : World :=
  foldSet Prod.snd (fun ic => resetUpd ic.1) s.cardIds.enum w

/-- `handle_shuffle_back_in_key_press` (when the key fires): the reset applied
to every session. -/
def shuffleBackIn (w : World) : World :=
  w.sessions.foldl (fun acc ss => shuffleBackInSession acc ss.2) w

/-! ### Wake request (`handle_sleeping_key_press`) -/

/-- Remove the `Sleeping` marker from every entity that carries it. -/
def wakeAll (w : World) : World :=
  { w with cards := w.cards.map (fun ec => (ec.1, { ec.2 with sleeping := false })) }

/-! ### The card state classifier (`determine_card_positioning_behaviours`) -/

/-- The classifier's pure decision: strict first-match priority over the
placement flags.  The `hasPlayer` flag does not influence the outcome (it only
drives the warning), mirroring the source's `Decision` match. -/
def classify (hasPlayer inDeck inHand played trump : Bool) :
    Option CardPositioningBehaviour :=
  if inHand then some .InHand
  else if inDeck then some .InDeck
  else if played then some .Played
  else if trump then some .RevealedOnDeck
  else none

/-- The classifier's warning condition: a card in hand without an owner. -/
def classifyWarn (hasPlayer inHand : Bool) : Bool := inHand && !hasPlayer

/-- The classifier's per-card effect: the behaviour component becomes the pure
decision over the card's current placement flags. -/
def classifyUpd (c : CardState) : CardState :=
  { c with behaviour :=
      classify c.owner.isSome c.inDeck.isSome c.inHand.isSome c.played c.trump }

/-- One tick of the classifier: every card's behaviour component is replaced
by (or removed according to) the pure decision over its current flags. -/
def determineBehaviours (w : World) : World :=
  { w with cards := w.cards.map (fun ec => (ec.1, classifyUpd ec.2)) }

/-! ### The positioning solvers -/

/-- The solver parameters of one tick: the abstracted square-root easing and
quaternion slerp, the tick's `Instant::now()`, the table/card dimensions from
`Handles`, and the constant rotation `Quat::from_euler(XYZ, PI/2, 0, 0)` used
by the hand solver (irrational in exact arithmetic, hence a parameter). -/
structure SolverParams where
  sqrtQ : ℚ → ℚ
  slerpQ : Quat → Quat → ℚ → Quat
  now : ℚ
  tableHalfHeight : ℚ
  cardHalfY : ℚ
  q90 : Quat

/-- The deck stacking step, the source's literal `0.01`. -/
def stackStep : ℚ := 1 / 100

/-- The hand fanning step, the source's literal `0.1`. -/
def fanStep : ℚ := 1 / 10

/-- The leftmost hand card's forward offset, the source's literal `0.5`. -/
def handForward : ℚ := 1 / 2

/-- Interpolation progress since the travel start:
`elapsed.min(1.0).powf(0.5)`. -/
def travelProgress (P : SolverParams) (start : ℚ) : ℚ :=
  P.sqrtQ (min (P.now - start) 1)

/-- The deck solver's target pose for a card of index `i`: index 0 aims at the
table surface offset (skipped if the table is missing), every other index aims
at the bottom card's snapshot offset vertically by `i * stackStep` with the
bottom card's rotation. -/
def deckDesired (P : SolverParams) (tableMaybe : Option Transform)
    (bottomSnap : Transform) (i : Nat) : Option (Vec3 × Quat) :=
  match i with
  | 0 =>
    match tableMaybe with
    | none => none
    | some tT =>
      some (tT.translation.add (Vec3.yUp (P.tableHalfHeight + P.cardHalfY)),
            Quat.ident)
  | _ =>
    some (bottomSnap.translation.add (Vec3.yUp ((i : ℚ) * stackStep)),
          bottomSnap.rotation)

/-- Shared interpolation tail of both solvers: get-or-install the travel start,
compute progress, lerp/slerp the transform toward the desired pose, and on
progress ≥ 0.99 drop the travel marker and install the rest marker. -/
def interpolateCard (P : SolverParams) (dpos : Vec3) (drot : Quat)
    (c : CardState) : CardState :=
  let start := c.travelStart.getD P.now
  let c1 := { c with travelStart := some start }
  let prog := travelProgress P start
  let c2 := { c1 with transform :=
    ⟨c.transform.translation.lerp dpos prog,
     P.slerpQ c.transform.rotation drot prog⟩ }
  if 99 / 100 ≤ prog then { c2 with travelStart := none, sleeping := true } else c2

/-- The deck solver's whole per-card update. -/
def deckPositionCard (P : SolverParams) (tableMaybe : Option Transform)
    (bottomSnap : Transform) (c : CardState) : CardState :=
  match c.inDeck with
  | none => c
  | some i =>
    match deckDesired P tableMaybe bottomSnap i with
    | none => c
    | some dr => interpolateCard P dr.1 dr.2 c

/-- The deck solver's query over one session: cards of the session carrying a
behaviour, a transform and `InDeck` (the source's `cards_in_decks_query`). -/
def deckQueryPairs (w : World) (s : Session) : List (Entity × CardState) :=
  s.cardIds.filterMap (fun cid =>
    match assocLookup cid w.cards with
    | none => none
    | some c =>
      if c.behaviour.isSome && c.inDeck.isSome then some (cid, c) else none)

/-- The session's deck cards sorted ascending by `index_from_bottom`. -/
def deckSorted (w : World) (s : Session) : List (Entity × CardState) :=
  sortByKey (fun pc => ((pc.2.inDeck.getD 0 : Nat) : Int)) (deckQueryPairs w s)

/-- The cards the deck solver repositions: not resting, behaviour `InDeck`. -/
def deckToPosition (w : World) (s : Session) : List Entity :=
  ((deckSorted w s).filter (fun pc =>
    !pc.2.sleeping && pc.2.behaviour == some CardPositioningBehaviour.InDeck)).map (·.1)

/-- `handle_cards_positioning_cards_in_deck` for one session: the bottom card
is the head of the index-sorted deck; its *current* transform is snapshotted
and every eligible card is repositioned relative to it. -/
def deckSolverSession (P : SolverParams) (w : World) (s : Session) : World :=
  match deckSorted w s with
  | [] => w
  | (bId, _) :: _ =>
    match assocLookup bId w.cards with
    | none => w
    | some bc =>
      let bSnap := bc.transform
      let tableMaybe := (assocLookup s.tableId w.tables).map (·.transform)
      foldSet id (fun _ => deckPositionCard P tableMaybe bSnap) (deckToPosition w s) w

/-- The deck solver over every session. -/
def deckSolver (P : SolverParams) (w : World) : World :=
  w.sessions.foldl (fun acc ss => deckSolverSession P acc ss.2) w

/-- The hand solver's query for one card id: the card must carry a behaviour,
a transform, `InHand` and `BelongsToPlayer` (the source's
`cards_in_hands_query` of the positioning system). -/
def handQueryGet (w : World) (cid : Entity) : Option CardState :=
  match assocLookup cid w.cards with
  | none => none
  | some c =>
    if c.behaviour.isSome && c.inHand.isSome && c.owner.isSome then some c else none

/-- One player's hand, sorted ascending by `index_from_left`. -/
def handPairsFor (w : World) (s : Session) (pId : Entity) :
    List (Entity × CardState) :=
  sortByKey (fun pc => ((pc.2.inHand.getD 0 : Nat) : Int))
    (s.cardIds.filterMap (fun cid =>
      match handQueryGet w cid with
      | none => none
      | some c => if c.owner == some pId then some (cid, c) else none))

/-- The hand cards the solver repositions: not resting, behaviour `InHand`. -/
def handToPosition (w : World) (s : Session) (pId : Entity) : List Entity :=
  ((handPairsFor w s pId).filter (fun pc =>
    !pc.2.sleeping && pc.2.behaviour == some CardPositioningBehaviour.InHand)).map (·.1)

/-- The hand solver's target pose for index `i`: the leftmost card sits in
front of the player, every other card fans right of the leftmost card's
snapshot by `i * fanStep` with its rotation. -/
def handDesired (P : SolverParams) (playerT : Transform) (leftSnap : Transform)
    (i : Nat) : Vec3 × Quat :=
  match i with
  | 0 =>
    (playerT.translation.add (playerT.forwardVec.smul handForward),
     playerT.rotation.mul P.q90)
  | _ =>
    (leftSnap.translation.add (leftSnap.rightVec.smul ((i : ℚ) * fanStep)),
     leftSnap.rotation)

/-- The hand solver's whole per-card update. -/
def handPositionCard (P : SolverParams) (playerT : Transform)
    (leftSnap : Transform) (c : CardState) : CardState :=
  match c.inHand with
  | none => c
  | some i =>
    let dr := handDesired P playerT leftSnap i
    interpolateCard P dr.1 dr.2 c

/-- `handle_cards_positioning_cards_in_hand` for one player of a session. -/
def handSolverPlayer (P : SolverParams) (w : World) (s : Session)
    (pId : Entity) : World :=
  match assocLookup pId w.players with
  | none => w
  | some ps =>
    match handPairsFor w s pId with
    | [] => w
    | (lId, _) :: _ =>
      match handQueryGet w lId with
      | none => w
      | some lc =>
        foldSet id (fun _ => handPositionCard P ps.transform lc.transform)
          (handToPosition w s pId) w

/-- The hand solver for one session: every player of the session in order. -/
def handSolverSession (P : SolverParams) (w : World) (s : Session) : World :=
  s.playerIds.foldl (fun acc pId => handSolverPlayer P acc s pId) w

/-- The hand solver over every session. -/
def handSolver (P : SolverParams) (w : World) : World :=
  w.sessions.foldl (fun acc ss => handSolverSession P acc ss.2) w

/-- The card-touching stages of one tick with no pending requests: classifier,
then deck solver, then hand solver (the source's chained system order). -/
def motionTick (P : SolverParams) (w : World) : World :=
  handSolver P (deckSolver P (determineBehaviours w))

/-- Several quiet ticks, each with its own parameters (its own `now`). -/
def motionTicks (ps : List SolverParams) (w : World) : World :=
  ps.foldl (fun acc P => motionTick P acc) w

/-! ### Dealer selection (`handle_tables_needing_dealer`) -/

/-- `map.entry(player).or_insert_with(Vec::new).push(card)`. -/
def pushEntry (m : List (Entity × List Card)) (p : Entity) (c : Card) :
    List (Entity × List Card) :=
  match m with
  | [] => [(p, [c])]
  | (q, cs) :: rest =>
    if q = p then (q, cs ++ [c]) :: rest else (q, cs) :: pushEntry rest p c

/-- One step of partitioning in-hand cards by owner: skip ids whose entity
lacks a card, keep cards carrying `InHand`, require an owner. -/
def cbpStep (w : World) (m : List (Entity × List Card)) (cid : Entity) :
    List (Entity × List Card) :=
  match assocLookup cid w.cards with
  | none => m
  | some c =>
    if c.inHand.isSome then
      match c.owner with
      | some p => pushEntry m p c.card
      | none => m
    else m

/-- The in-hand cards of a session partitioned by owning player: a fold over
the session's card-id set keeping cards that carry `InHand` and an owner. -/
def cardsByPlayer (w : World) (s : Session) : List (Entity × List Card) :=
  s.cardIds.foldl (cbpStep w) []

/-- The session players currently holding no cards (the handler's filter). -/
def noCardsInHand (w : World) (s : Session) : List Entity :=
  s.playerIds.filter (fun p =>
    match assocLookup p (cardsByPlayer w s) with
    | none => true
    | some cs => cs.isEmpty)

/-- Each hand owner paired with the rank-value sum of its hand. -/
def playerValues (w : World) (s : Session) : List (Entity × Nat) :=
  (cardsByPlayer w s).map (fun pcs =>
    (pcs.1, (pcs.2.map (fun c => c.rank.value)).sum))

/-- A player's score: the rank-value sum of the in-hand cards credited to it. -/
def playerScore (w : World) (s : Session) (p : Entity) : Nat :=
  (((assocLookup p (cardsByPlayer w s)).getD []).map (fun c => c.rank.value)).sum

/-- Maximum of a list of naturals, `None` on the empty list (Rust `max()`). -/
def listMax : List Nat → Option Nat
  | [] => none
  | a :: as =>
    match listMax as with
    | none => some a
    | some m => some (max a m)

/-- The owners whose hand value ties the maximum. -/
def dealerWinners (w : World) (s : Session) (m : Nat) : List Entity :=
  ((playerValues w s).filter (fun qv => qv.2 == m)).map (·.1)

/-- The dealer-selection handler for one table carrying `NeedsDealer` and a
session reference.  Returns the updated world and the deal requests emitted. -/
def dealerStepTable (w0 : World) (acc : World × List DealCardsEvent)
    (ts : TableState) : World × List DealCardsEvent :=
  match ts.sessionRef with
  | none => acc
  | some sref =>
    match assocLookup sref w0.sessions with
    | none => acc
    | some s =>
      if s.playerIds.length < 2 then acc
      else if (noCardsInHand w0 s).isEmpty = false then
        (acc.1, acc.2 ++ [⟨sref, noCardsInHand w0 s⟩])
      else
        match listMax ((playerValues w0 s).map (·.2)) with
        | none => acc
        | some m =>
          match dealerWinners w0 s m with
          | [p] =>
            ({ acc.1 with
                tables := assocUpdate s.tableId
                  (fun t => { t with needsDealer := false }) acc.1.tables,
                players := assocUpdate p
                  (fun pl => { pl with dealer := true }) acc.1.players },
             acc.2)
          | _ => (acc.1, acc.2 ++ [⟨sref, dealerWinners w0 s m⟩])

/-- `handle_tables_needing_dealer`: every table still flagged `NeedsDealer`. -/
def tablesNeedingDealer (w : World) : World × List DealCardsEvent :=
  ((w.tables.filter (fun tts => tts.2.needsDealer)).map (·.2)).foldl
    (dealerStepTable w) (w, [])

/-! ### The principal placement invariant -/

/-- Number of placement tags a card carries.  `InTakenTrick` is not a
component anywhere in the source, so only the three existing placement tags
(`InDeck`, `InHand`, `Played`) can contribute; a card trivially never carries
the reserved fourth tag. -/
def placementCount (c : CardState) : Nat :=
  (if c.inDeck.isSome then 1 else 0) + (if c.inHand.isSome then 1 else 0) +
    (if c.played then 1 else 0)

/-- Mutual exclusivity of the placement tags for one card. -/
def exclusivePlacement (c : CardState) : Prop := placementCount c ≤ 1

/-- Mutual exclusivity for every card entity of the world. -/
def worldExclusive (w : World) : Prop :=
  ∀ pr ∈ w.cards, exclusivePlacement pr.2

instance worldExclusiveDecidable (w : World) : Decidable (worldExclusive w) :=
  inferInstanceAs (Decidable (∀ pr ∈ w.cards, placementCount pr.2 ≤ 1))

/-! ### Association-list lemmas -/

theorem assocLookup_update_self {α : Type} (k : Entity) (f : α → α)
    (l : List (Entity × α)) :
    assocLookup k (assocUpdate k f l) = (assocLookup k l).map f := by
  induction l with
  | nil => rfl
  | cons hd tl ih =>
    obtain ⟨a, b⟩ := hd
    have hsh : assocUpdate k f ((a, b) :: tl)
        = (if a = k then (a, f b) else (a, b)) :: assocUpdate k f tl := rfl
    rw [hsh]
    by_cases h : a = k
    · rw [if_pos h]
      simp [assocLookup, h]
    · rw [if_neg h]
      simp [assocLookup, h, ih]

theorem assocLookup_update_ne {α : Type} (k k' : Entity) (f : α → α)
    (l : List (Entity × α)) (h : k' ≠ k) :
    assocLookup k' (assocUpdate k f l) = assocLookup k' l := by
  induction l with
  | nil => rfl
  | cons hd tl ih =>
    obtain ⟨a, b⟩ := hd
    have hsh : assocUpdate k f ((a, b) :: tl)
        = (if a = k then (a, f b) else (a, b)) :: assocUpdate k f tl := rfl
    rw [hsh]
    by_cases hk : a = k
    · rw [if_pos hk]
      have ha : a ≠ k' := fun hh => h (hk ▸ hh.symm ▸ rfl)
      simp [assocLookup, ha, ih]
    · rw [if_neg hk]
      by_cases hk' : a = k'
      · simp [assocLookup, hk']
      · simp [assocLookup, hk', ih]

theorem mem_of_assocLookup {α : Type} {k : Entity} {v : α}
    {l : List (Entity × α)} (h : assocLookup k l = some v) : (k, v) ∈ l := by
  induction l with
  | nil => simp [assocLookup] at h
  | cons hd tl ih =>
    by_cases hk : hd.1 = k
    · simp [assocLookup, hk] at h
      have : hd = (k, v) := by
        cases hd
        simp_all
      exact this ▸ List.mem_cons_self _ _
    · simp [assocLookup, hk] at h
      exact List.mem_cons_of_mem _ (ih h)

theorem assocUpdate_keys {α : Type} (k : Entity) (f : α → α)
    (l : List (Entity × α)) :
    (assocUpdate k f l).map Prod.fst = l.map Prod.fst := by
  induction l with
  | nil => rfl
  | cons hd tl ih =>
    by_cases hk : hd.1 = k
    · simpa [assocUpdate, hk] using ih
    · simpa [assocUpdate, hk] using ih

theorem assocLookup_eq_of_mem_nodup {α : Type} {k : Entity} {v : α}
    {l : List (Entity × α)} (hnd : (l.map Prod.fst).Nodup)
    (hm : (k, v) ∈ l) : assocLookup k l = some v := by
  induction l with
  | nil => simp at hm
  | cons hd tl ih =>
    have hnd' : hd.1 ∉ tl.map Prod.fst ∧ (tl.map Prod.fst).Nodup := by
      rw [List.map_cons] at hnd
      exact List.nodup_cons.mp hnd
    rcases List.mem_cons.mp hm with h | h
    · subst h
      simp [assocLookup]
    · have hk : hd.1 ≠ k := by
        intro he
        exact hnd'.1 (he ▸ List.mem_map_of_mem Prod.fst h)
      simp only [assocLookup, if_neg hk]
      exact ih hnd'.2 h

theorem mem_assocUpdate {α : Type} {k : Entity} {f : α → α}
    {l : List (Entity × α)} {pr : Entity × α} (h : pr ∈ assocUpdate k f l) :
    pr ∈ l ∨ ∃ c, (k, c) ∈ l ∧ pr = (k, f c) := by
  rcases List.mem_map.mp h with ⟨q, hq, he⟩
  by_cases hk : q.1 = k
  · right
    refine ⟨q.2, ?_, ?_⟩
    · rw [← hk]
      exact hq
    · simp [hk] at he
      exact he.symm
  · left
    simp [hk] at he
    exact he ▸ hq

/-! ### Sorting lemmas -/

theorem perm_insertByKey {α : Type} (key : α → Int) (a : α) (l : List α) :
    (insertByKey key a l).Perm (a :: l) := by
  induction l with
  | nil => exact List.Perm.refl _
  | cons b bs ih =>
    show (if key a ≤ key b then a :: b :: bs else b :: insertByKey key a bs).Perm
      (a :: b :: bs)
    by_cases h : key a ≤ key b
    · rw [if_pos h]
    · rw [if_neg h]
      exact (ih.cons b).trans (List.Perm.swap a b bs)

theorem perm_sortByKey {α : Type} (key : α → Int) (l : List α) :
    (sortByKey key l).Perm l := by
  induction l with
  | nil => exact List.Perm.refl _
  | cons a as ih => exact (perm_insertByKey key a _).trans (ih.cons a)

theorem mem_sortByKey {α : Type} {key : α → Int} {l : List α} {x : α} :
    x ∈ sortByKey key l ↔ x ∈ l := (perm_sortByKey key l).mem_iff

theorem sorted_insertByKey {α : Type} (key : α → Int) (a : α) (l : List α)
    (h : l.Pairwise (fun x y => key x ≤ key y)) :
    (insertByKey key a l).Pairwise (fun x y => key x ≤ key y) := by
  induction l with
  | nil => simp [insertByKey]
  | cons b bs ih =>
    show (if key a ≤ key b then a :: b :: bs else b :: insertByKey key a bs).Pairwise _
    have h' := List.pairwise_cons.mp h
    by_cases hab : key a ≤ key b
    · rw [if_pos hab]
      refine List.Pairwise.cons ?_ h
      intro x hx
      rcases List.mem_cons.mp hx with hx | hx
      · exact hx ▸ hab
      · exact le_trans hab (h'.1 x hx)
    · rw [if_neg hab]
      refine List.Pairwise.cons ?_ (ih h'.2)
      intro x hx
      have hx' := (perm_insertByKey key a bs).mem_iff.mp hx
      rcases List.mem_cons.mp hx' with hx' | hx'
      · exact hx' ▸ (not_le.mp hab).le
      · exact h'.1 x hx'

theorem sorted_sortByKey {α : Type} (key : α → Int) (l : List α) :
    (sortByKey key l).Pairwise (fun x y => key x ≤ key y) := by
  induction l with
  | nil => exact List.Pairwise.nil
  | cons a as ih => exact sorted_insertByKey key a _ ih

/-! ### Lemmas about `foldSet` -/

theorem foldSet_sessions {β : Type} (idf : β → Entity)
    (uf : β → CardState → CardState) (l : List β) (w : World) :
    (foldSet idf uf l w).sessions = w.sessions := by
  induction l generalizing w with
  | nil => rfl
  | cons b bs ih => exact ih (setCard w (idf b) (uf b))

theorem foldSet_tables {β : Type} (idf : β → Entity)
    (uf : β → CardState → CardState) (l : List β) (w : World) :
    (foldSet idf uf l w).tables = w.tables := by
  induction l generalizing w with
  | nil => rfl
  | cons b bs ih => exact ih (setCard w (idf b) (uf b))

theorem foldSet_players {β : Type} (idf : β → Entity)
    (uf : β → CardState → CardState) (l : List β) (w : World) :
    (foldSet idf uf l w).players = w.players := by
  induction l generalizing w with
  | nil => rfl
  | cons b bs ih => exact ih (setCard w (idf b) (uf b))

theorem foldSet_keys {β : Type} (idf : β → Entity)
    (uf : β → CardState → CardState) (l : List β) (w : World) :
    (foldSet idf uf l w).cards.map Prod.fst = w.cards.map Prod.fst := by
  induction l generalizing w with
  | nil => rfl
  | cons b bs ih =>
    rw [foldSet, List.foldl_cons, ← foldSet]
    rw [ih (setCard w (idf b) (uf b))]
    exact assocUpdate_keys (idf b) (uf b) w.cards

theorem foldSet_lookup_not_mem {β : Type} (idf : β → Entity)
    (uf : β → CardState → CardState) (l : List β) (w : World) (e : Entity)
    (h : ∀ b ∈ l, idf b ≠ e) :
    assocLookup e (foldSet idf uf l w).cards = assocLookup e w.cards := by
  induction l generalizing w with
  | nil => rfl
  | cons b bs ih =>
    rw [foldSet, List.foldl_cons, ← foldSet]
    rw [ih (setCard w (idf b) (uf b)) (fun x hx => h x (List.mem_cons_of_mem b hx))]
    exact assocLookup_update_ne (idf b) e (uf b) w.cards
      (fun he => h b (List.mem_cons_self b bs) he.symm)

theorem foldSet_lookup_mem {β : Type} (idf : β → Entity)
    (uf : β → CardState → CardState) (l : List β) (w : World) (b : β)
    (hb : b ∈ l) (hnd : (l.map idf).Nodup) :
    assocLookup (idf b) (foldSet idf uf l w).cards
      = (assocLookup (idf b) w.cards).map (uf b) := by
  induction l generalizing w with
  | nil => cases hb
  | cons c cs ih =>
    have hnd' : idf c ∉ cs.map idf ∧ (cs.map idf).Nodup := by
      rw [List.map_cons] at hnd
      exact List.nodup_cons.mp hnd
    rw [foldSet, List.foldl_cons, ← foldSet]
    rcases List.mem_cons.mp hb with hbc | hmem
    · subst hbc
      have hnotin : ∀ x ∈ cs, idf x ≠ idf b := by
        intro x hx he
        exact hnd'.1 (he ▸ List.mem_map_of_mem idf hx)
      rw [foldSet_lookup_not_mem idf uf cs _ (idf b) hnotin]
      exact assocLookup_update_self (idf b) (uf b) w.cards
    · have hne : idf c ≠ idf b := by
        intro he
        exact hnd'.1 (he ▸ List.mem_map_of_mem idf hmem)
      rw [ih (setCard w (idf c) (uf c)) hmem hnd'.2]
      have : assocLookup (idf b) (setCard w (idf c) (uf c)).cards
          = assocLookup (idf b) w.cards :=
        assocLookup_update_ne (idf c) (idf b) (uf c) w.cards (fun he => hne he.symm)
      rw [this]

theorem foldSet_pred {β : Type} (P : CardState → Prop) (idf : β → Entity)
    (uf : β → CardState → CardState) (l : List β) (w : World)
    (hf : ∀ b ∈ l, ∀ c, P (uf b c)) (hw : ∀ pr ∈ w.cards, P pr.2) :
    ∀ pr ∈ (foldSet idf uf l w).cards, P pr.2 := by
  induction l generalizing w with
  | nil => exact hw
  | cons b bs ih =>
    rw [foldSet, List.foldl_cons, ← foldSet]
    refine ih _ (fun x hx c => hf x (List.mem_cons_of_mem b hx) c) ?_
    intro pr hpr
    rcases mem_assocUpdate hpr with h | ⟨c, _, he⟩
    · exact hw pr h
    · rw [he]
      exact hf b (List.mem_cons_self b bs) c

theorem assocLookup_mapVal {α β : Type} (g : α → β) (k : Entity)
    (l : List (Entity × α)) :
    assocLookup k (l.map (fun ec => (ec.1, g ec.2))) = (assocLookup k l).map g := by
  induction l with
  | nil => rfl
  | cons hd tl ih =>
    obtain ⟨a, b⟩ := hd
    by_cases h : a = k
    · simp [assocLookup, h]
    · simp [assocLookup, h, ih]

/-! ### Query characterisation lemmas -/

theorem mem_deckYPairs {w : World} {s : Session} {cid : Entity} {y : ℚ}
    (h : (cid, y) ∈ deckYPairs w s) :
    cid ∈ s.cardIds ∧ ∃ c, assocLookup cid w.cards = some c
      ∧ c.inDeck.isSome = true ∧ y = c.transform.translation.y := by
  rcases List.mem_filterMap.mp h with ⟨a, ha, hf⟩
  cases hla : assocLookup a w.cards with
  | none =>
    rw [hla] at hf
    simp at hf
  | some c =>
    rw [hla] at hf
    have hf2 : (if c.inDeck.isSome = true
        then some (a, c.transform.translation.y) else none) = some (cid, y) := hf
    by_cases hd : c.inDeck.isSome
    · rw [if_pos hd] at hf2
      have h1 : a = cid := congrArg Prod.fst (Option.some.inj hf2)
      have h2 : c.transform.translation.y = y := congrArg Prod.snd (Option.some.inj hf2)
      subst h1
      exact ⟨ha, c, hla, hd, h2.symm⟩
    · rw [if_neg hd] at hf2
      simp at hf2

theorem mem_deckYPairs_intro {w : World} {s : Session} {cid : Entity}
    {c : CardState} (hmem : cid ∈ s.cardIds)
    (hc : assocLookup cid w.cards = some c) (hd : c.inDeck.isSome = true) :
    (cid, c.transform.translation.y) ∈ deckYPairs w s := by
  refine List.mem_filterMap.mpr ⟨cid, hmem, ?_⟩
  rw [hc]
  show (if c.inDeck.isSome = true
      then some (cid, c.transform.translation.y) else none)
    = some (cid, c.transform.translation.y)
  rw [if_pos hd]

theorem topCards_mem {w : World} {s : Session} {cid : Entity}
    (h : cid ∈ topCards w s) :
    cid ∈ s.cardIds ∧ ∃ c, assocLookup cid w.cards = some c
      ∧ c.inDeck.isSome = true := by
  rcases List.mem_map.mp h with ⟨py, hpy, he⟩
  have hpy' : py ∈ deckYPairs w s :=
    mem_sortByKey.mp (List.mem_reverse.mp hpy)
  obtain ⟨a, y⟩ := py
  have := mem_deckYPairs hpy'
  simp only at he
  subst he
  exact ⟨this.1, this.2.choose, this.2.choose_spec.1, this.2.choose_spec.2.1⟩

/-! ### Concrete fixtures used by the counterexamples and evaluations -/

/-- The identity transform at the origin. -/
def idTf : Transform := ⟨⟨0, 0, 0⟩, Quat.ident⟩

/-- A plain in-deck card with given stacking index and physical height. -/
def deckCardAt (i : Nat) (y : ℚ) : CardState :=
  { card := ⟨Suit.Spades, Rank.Ace⟩, inDeck := some i, inHand := none,
    played := false, trump := false, owner := none, sleeping := false,
    behaviour := none, travelStart := none,
    transform := ⟨⟨0, y, 0⟩, Quat.ident⟩ }

/-- A plain in-hand card of the given rank, owner and hand index. -/
def handCardOf (r : Rank) (p : Entity) (i : Nat) : CardState :=
  { card := ⟨Suit.Hearts, r⟩, inDeck := none, inHand := some i,
    played := false, trump := false, owner := some p, sleeping := false,
    behaviour := none, travelStart := none, transform := idTf }

/-! ### Claim C5 -/

/-- C5: the positioning behaviour assigned to a card by the classifier tick is
a pure function of its current placement flags — identical for identical
flag-sets regardless of the previous behaviour — evaluated by strict
first-match priority: `InHand` (assigned even with no owning player, which
only raises the warning), else `InDeck`, else `Played`, else `Trump` gives
`RevealedOnDeck`, else the behaviour is removed. -/
theorem C5_classifier_pure_priority (w : World) (e : Entity) (c : CardState)
    (h : assocLookup e w.cards = some c) :
    (assocLookup e (determineBehaviours w).cards = some (classifyUpd c))
    ∧ (∀ b, assocLookup e (determineBehaviours
        (setCard w e (fun c0 => { c0 with behaviour := b }))).cards
        = some (classifyUpd c))
    ∧ (classifyUpd c).behaviour
        = classify c.owner.isSome c.inDeck.isSome c.inHand.isSome c.played c.trump
    ∧ (∀ hp ind inh pl tr : Bool,
        (inh = true → classify hp ind inh pl tr = some CardPositioningBehaviour.InHand)
      ∧ (inh = false → ind = true →
          classify hp ind inh pl tr = some CardPositioningBehaviour.InDeck)
      ∧ (inh = false → ind = false → pl = true →
          classify hp ind inh pl tr = some CardPositioningBehaviour.Played)
      ∧ (inh = false → ind = false → pl = false → tr = true →
          classify hp ind inh pl tr = some CardPositioningBehaviour.RevealedOnDeck)
      ∧ (inh = false → ind = false → pl = false → tr = false →
          classify hp ind inh pl tr = none)
      ∧ (inh = true → hp = false → classifyWarn hp inh = true)) := by
  refine ⟨?_, ?_, rfl, ?_⟩
  · show assocLookup e (w.cards.map (fun ec => (ec.1, classifyUpd ec.2)))
      = some (classifyUpd c)
    rw [assocLookup_mapVal classifyUpd e w.cards, h]
    rfl
  · intro b
    show assocLookup e ((assocUpdate e (fun c0 => { c0 with behaviour := b })
        w.cards).map (fun ec => (ec.1, classifyUpd ec.2))) = some (classifyUpd c)
    rw [assocLookup_mapVal classifyUpd e _, assocLookup_update_self, h]
    rfl
  · intro hp ind inh pl tr
    refine ⟨?_, ?_, ?_, ?_, ?_, ?_⟩ <;> intros <;> subst_vars <;>
      simp [classify, classifyWarn]

/-- A one-card world exercising the classifier. -/
def c5World : World :=
  { cards := [(0, handCardOf Rank.Ace 7 0)], sessions := [], tables := [],
    players := [] }

theorem C5_witness :
    assocLookup 0 (determineBehaviours c5World).cards
      = some (classifyUpd (handCardOf Rank.Ace 7 0))
    ∧ classify false false true false false
        = some CardPositioningBehaviour.InHand
    ∧ classifyWarn false true = true := by
  have h := C5_classifier_pure_priority c5World 0 (handCardOf Rank.Ace 7 0)
    (by decide)
  exact ⟨h.1, (h.2.2.2 false false true false false).1 rfl,
    (h.2.2.2 false false true false false).2.2.2.2.2 rfl rfl⟩

/-! ### Claim C7 -/

/-- C7: the move-all-cards-back-to-deck reset leaves every one of the
session's cards `InDeck`, with `index_from_bottom` running contiguously from
0 in enumeration order, and with no `InHand`, `Played` or `Trump` tag, no
owning player and no rest marker. -/
theorem C7_reset_to_deck (w : World) (sid : Entity) (s : Session)
    (hsess : w.sessions = [(sid, s)]) (hnd : s.cardIds.Nodup)
    (i : Nat) (hi : i < s.cardIds.length) :
    ∀ c, assocLookup (s.cardIds.get ⟨i, hi⟩) w.cards = some c →
    assocLookup (s.cardIds.get ⟨i, hi⟩) (shuffleBackIn w).cards
        = some (resetUpd i c)
      ∧ (resetUpd i c).inDeck = some i ∧ (resetUpd i c).inHand = none
      ∧ (resetUpd i c).played = false ∧ (resetUpd i c).trump = false
      ∧ (resetUpd i c).owner = none ∧ (resetUpd i c).sleeping = false := by
  intro c hc
  have hstep : shuffleBackIn w = shuffleBackInSession w s := by
    rw [shuffleBackIn, hsess]
    rfl
  rw [hstep]
  have hb : ((i, s.cardIds.get ⟨i, hi⟩) : Nat × Entity) ∈ s.cardIds.enum := by
    rw [List.mk_mem_enum_iff_getElem?]
    simp [List.getElem?_eq_getElem hi]
  have hmap : (s.cardIds.enum.map Prod.snd).Nodup := by
    rw [List.enum_map_snd]
    exact hnd
  have hlook := foldSet_lookup_mem Prod.snd (fun ic => resetUpd ic.1)
    s.cardIds.enum w (i, s.cardIds.get ⟨i, hi⟩) hb hmap
  refine ⟨?_, rfl, rfl, rfl, rfl, rfl, rfl⟩
  show assocLookup (s.cardIds.get ⟨i, hi⟩)
      (foldSet Prod.snd (fun ic => resetUpd ic.1) s.cardIds.enum w).cards
    = some (resetUpd i c)
  rw [hlook, hc]
  rfl

/-- A played, resting card used by the C7 fixture. -/
def c7PlayedCard : CardState :=
  { card := ⟨Suit.Hearts, Rank.Two⟩, inDeck := none, inHand := none,
    played := true, trump := false, owner := none, sleeping := true,
    behaviour := none, travelStart := none, transform := idTf }

/-- A trump card used by the C7 fixture. -/
def c7TrumpCard : CardState :=
  { card := ⟨Suit.Spades, Rank.Ace⟩, inDeck := none, inHand := none,
    played := false, trump := true, owner := none, sleeping := false,
    behaviour := none, travelStart := none, transform := idTf }

/-- A three-card world with one card in hand, one played, one trump. -/
def c7World : World :=
  { cards :=
      [(0, handCardOf Rank.Ace 7 0), (1, c7PlayedCard), (2, c7TrumpCard)],
    sessions := [(10, ⟨20, [7], [0, 1, 2]⟩)],
    tables := [(20, ⟨idTf, true, some 10⟩)],
    players := [(7, ⟨idTf, false⟩)] }

theorem C7_witness :
    assocLookup 1 (shuffleBackIn c7World).cards = some (resetUpd 1 c7PlayedCard)
      ∧ (resetUpd 1 c7PlayedCard).inDeck = some 1
      ∧ (resetUpd 1 c7PlayedCard).owner = none
      ∧ (resetUpd 1 c7PlayedCard).sleeping = false := by
  have h := C7_reset_to_deck c7World 10 ⟨20, [7], [0, 1, 2]⟩ rfl (by decide)
    1 (by decide) c7PlayedCard (by decide)
  exact ⟨h.1, h.2.1, h.2.2.2.2.2.1, h.2.2.2.2.2.2⟩

/-! ### Claim C10 -/

/-- C10: the distributor performs no membership validation of the player ids
of a deal request: even for an entity `p` outside the session's player set,
the topmost card is removed from the deck, given owner `p`, and placed
in-hand.  The data-model invariant tying in-hand owners to the session's
players is not enforced here. -/
theorem C10_no_owner_validation (w : World) (sid : Entity) (s : Session)
    (p : Entity) (cid : Entity) (rest : List Entity)
    (hs : assocLookup sid w.sessions = some s)
    (hp : p ∉ s.playerIds)
    (htop : topCards w s = cid :: rest) :
    ∃ c, assocLookup cid w.cards = some c
      ∧ assocLookup cid (dealCards w [⟨sid, [p]⟩]).cards
          = some (dealUpd p ((assocLookup p (handSizes w)).getD 0) c)
      ∧ (dealUpd p ((assocLookup p (handSizes w)).getD 0) c).owner = some p
      ∧ (dealUpd p ((assocLookup p (handSizes w)).getD 0) c).inHand.isSome = true
      ∧ (dealUpd p ((assocLookup p (handSizes w)).getD 0) c).inDeck = none := by
  have hcmem : cid ∈ topCards w s := htop ▸ List.mem_cons_self cid rest
  obtain ⟨-, c, hc, -⟩ := topCards_mem hcmem
  refine ⟨c, hc, ?_, rfl, rfl, rfl⟩
  show assocLookup cid
      ((([(⟨sid, [p]⟩ : DealCardsEvent)]).foldl (applyDealEvent w)
        (w, handSizes w)).1).cards
    = some (dealUpd p ((assocLookup p (handSizes w)).getD 0) c)
  rw [List.foldl_cons, List.foldl_nil]
  show assocLookup cid
      (applyDealEvent w (w, handSizes w) ⟨sid, [p]⟩).1.cards = _
  simp only [applyDealEvent, hs]
  rw [htop]
  show assocLookup cid
      (applyDealPair (w, handSizes w) (p, cid)).1.cards = _
  show assocLookup cid (assocUpdate cid
      (dealUpd p ((assocLookup p (handSizes w)).getD 0)) w.cards) = _
  rw [assocLookup_update_self, hc]
  rfl

/-- A one-deck-card world whose session has player set `[2]`. -/
def c10World : World :=
  { cards := [(0, deckCardAt 0 0)],
    sessions := [(10, ⟨20, [2], [0]⟩)],
    tables := [(20, ⟨idTf, true, some 10⟩)],
    players := [(2, ⟨idTf, false⟩)] }

theorem C10_witness :
    ∃ c, assocLookup 0 c10World.cards = some c
      ∧ assocLookup 0 (dealCards c10World [⟨10, [9]⟩]).cards
          = some (dealUpd 9 ((assocLookup 9 (handSizes c10World)).getD 0) c)
      ∧ (dealUpd 9 ((assocLookup 9 (handSizes c10World)).getD 0) c).owner = some 9
      ∧ (dealUpd 9 ((assocLookup 9 (handSizes c10World)).getD 0) c).inHand.isSome = true
      ∧ (dealUpd 9 ((assocLookup 9 (handSizes c10World)).getD 0) c).inDeck = none :=
  C10_no_owner_validation c10World 10 ⟨20, [2], [0]⟩ 9 0 [] (by decide)
    (by decide) (by decide)

/-! ### Claim C3: evaluation at the failing input -/

/-- Two fresh deck cards, one player (entity 2) with an empty hand. -/
def c3World : World :=
  { cards := [(0, deckCardAt 0 0), (1, deckCardAt 1 (1 / 100))],
    sessions := [(10, ⟨20, [2], [0, 1]⟩)],
    tables := [(20, ⟨idTf, true, some 10⟩)],
    players := [(2, ⟨idTf, false⟩)] }

/-- C3, evaluated at the failing input: dealing twice to a player whose hand
was empty at tick start gives BOTH cards `index_from_left = 0` — the claimed
`prior hand size + number already dealt this tick` would give 0 then 1.  The
per-tick counter increment is a silent no-op for players absent from the
initial hand-size map. -/
theorem C3_duplicate_index_eval :
    ((assocLookup 1 (dealCards c3World [⟨10, [2, 2]⟩]).cards).map
        (fun c => c.inHand)) = some (some 0)
    ∧ ((assocLookup 0 (dealCards c3World [⟨10, [2, 2]⟩]).cards).map
        (fun c => c.inHand)) = some (some 0)
    ∧ ((assocLookup 1 (dealCards c3World [⟨10, [2, 2]⟩]).cards).map
        (fun c => c.owner)) = some (some 2)
    ∧ ((assocLookup 0 (dealCards c3World [⟨10, [2, 2]⟩]).cards).map
        (fun c => c.owner)) = some (some 2)
    ∧ handSizes c3World = [] := of_decide_eq_true (by with_unfolding_all rfl)

/-! ### Claim C2: counterexample -/

/-- The session of the C2 counterexample world. -/
def c2Session : Session := ⟨20, [2], [0, 1]⟩

/-- Card 0 has stacking index 0 but physical height 1; card 1 has stacking
index 1 but height 0 (e.g. mid-flight after a reset re-indexed the cards). -/
def c2World : World :=
  { cards := [(0, deckCardAt 0 1), (1, deckCardAt 1 0)],
    sessions := [(10, c2Session)],
    tables := [(20, ⟨idTf, true, some 10⟩)],
    players := [(2, ⟨idTf, false⟩)] }

/-- C2 counterexample: the distributor orders the deck by quantised physical
height, not by stacking index.  Here the highest-index card is 1, so the
claim says card 1 is dealt next; the code deals card 0 (the physically
higher one) and leaves card 1 in the deck. -/
theorem C2_counterexample :
    topCards c2World c2Session = [0, 1]
    ∧ topCardsSpec c2World c2Session = [1, 0]
    ∧ ((assocLookup 0 c2World.cards).map (fun c => c.inDeck)) = some (some 0)
    ∧ ((assocLookup 1 c2World.cards).map (fun c => c.inDeck)) = some (some 1)
    ∧ ((assocLookup 0 (dealCards c2World [⟨10, [2]⟩]).cards).map
        (fun c => c.inHand.isSome)) = some true
    ∧ ((assocLookup 1 (dealCards c2World [⟨10, [2]⟩]).cards).map
        (fun c => c.inDeck)) = some (some 1) :=
  of_decide_eq_true (by with_unfolding_all rfl)

/-! ### Claim C4: counterexample -/

/-- The session of the C4 counterexample world. -/
def c4Session : Session := ⟨0, [2], [3]⟩

/-- One table needing a dealer, one player (entity 2) holding one card. -/
def c4World : World :=
  { cards := [(3, handCardOf Rank.Five 2 0)],
    sessions := [(1, c4Session)],
    tables := [(0, ⟨idTf, true, some 1⟩)],
    players := [(2, ⟨idTf, false⟩)] }

/-- C4 counterexample: a session whose table needs a dealer and in which
every player holds a card, with exactly one player attaining the maximum
score — yet the handler does nothing (the code requires at least two
players): the needs-dealer flag stays, no Dealer is marked. -/
theorem C4_counterexample :
    (tablesNeedingDealer c4World).1 = c4World
    ∧ (tablesNeedingDealer c4World).2 = []
    ∧ ((assocLookup 0 (tablesNeedingDealer c4World).1.tables).map
        (fun t => t.needsDealer)) = some true
    ∧ ((assocLookup 2 (tablesNeedingDealer c4World).1.players).map
        (fun pl => pl.dealer)) = some false
    ∧ playerScore c4World c4Session 2 = 5
    ∧ (∀ q ∈ c4Session.playerIds, playerScore c4World c4Session q ≤ 5) :=
  of_decide_eq_true (by with_unfolding_all rfl)

/-! ### Claim C8: counterexample -/

/-- Solver parameters with exact easing at full progress. -/
def c8P : SolverParams :=
  { sqrtQ := fun q => q, slerpQ := fun _ b _ => b, now := 1,
    tableHalfHeight := 1 / 2, cardHalfY := 1 / 2, q90 := Quat.ident }

/-- The session of the C8 counterexample world. -/
def c8Session : Session := ⟨0, [2], [4]⟩

/-- The single in-deck card of the C8 world: stacking index 1, mid-travel. -/
def c8Card : CardState :=
  { card := ⟨Suit.Spades, Rank.Ace⟩, inDeck := some 1, inHand := none,
    played := false, trump := false, owner := none, sleeping := false,
    behaviour := some CardPositioningBehaviour.InDeck, travelStart := some 0,
    transform := ⟨⟨0, 0, 0⟩, Quat.ident⟩ }

/-- A deck whose only card has stacking index 1 (the index-0 card was dealt
away): it is the lowest-index, hence bottom, card. -/
def c8World : World :=
  { cards := [(4, c8Card)],
    sessions := [(1, c8Session)],
    tables := [(0, ⟨idTf, true, some 1⟩)],
    players := [(2, ⟨idTf, false⟩)] }

/-- C8 counterexample: the claim says the lowest-index in-deck card is
targeted at the table surface offset (here `(0, 1, 0)`).  The code only gives
that target to a card whose index is literally 0; the bottom card of index 1
is instead positioned relative to its own snapshot, landing (at full
progress) at `(0, 1/100, 0)`. -/
theorem C8_counterexample :
    (deckSorted c8World c8Session).map (fun pc => pc.1) = [4]
    ∧ ((assocLookup 4 c8World.cards).map (fun c => c.inDeck)) = some (some 1)
    ∧ ((assocLookup 4 (deckSolverSession c8P c8World c8Session).cards).map
        (fun c => c.transform.translation)) = some ⟨0, 1 / 100, 0⟩
    ∧ (⟨0, 1 / 100, 0⟩ : Vec3) ≠
        (idTf.translation.add (Vec3.yUp (c8P.tableHalfHeight + c8P.cardHalfY)))
    := of_decide_eq_true (by with_unfolding_all rfl)

/-! ### Claim C1: the placement-exclusivity invariant -/

/-- The deal invariant carried through the distributor's folds: entries stay
exclusive, the `played` flags never change (no deal command touches them), and
the entity-id column is untouched. -/
def DealInv (w0 w : World) : Prop :=
  worldExclusive w
  ∧ (∀ e, (assocLookup e w.cards).map (fun c => c.played)
      = (assocLookup e w0.cards).map (fun c => c.played))
  ∧ w.cards.map Prod.fst = w0.cards.map Prod.fst

theorem dealInv_init (w0 : World) (hex : worldExclusive w0) : DealInv w0 w0 :=
  ⟨hex, fun _ => rfl, rfl⟩

theorem dealInv_pair (w0 : World) (hex0 : worldExclusive w0)
    (hnd0 : (w0.cards.map Prod.fst).Nodup)
    (st : World × List (Entity × Nat)) (pr : Entity × Entity)
    (hdeck : ∃ c0, assocLookup pr.2 w0.cards = some c0 ∧ c0.inDeck.isSome = true)
    (hInv : DealInv w0 st.1) : DealInv w0 (applyDealPair st pr).1 := by
  obtain ⟨hexc, hpl, hkeys⟩ := hInv
  obtain ⟨c0, hc0, hc0d⟩ := hdeck
  have hndacc : (st.1.cards.map Prod.fst).Nodup := by
    rw [hkeys]
    exact hnd0
  have hc0played : c0.played = false := by
    by_contra hcon
    rw [Bool.not_eq_false] at hcon
    have h2 : 2 ≤ placementCount c0 := by
      cases hin : c0.inHand.isSome <;>
        simp [placementCount, hc0d, hcon, hin] <;> omega
    have h3 : placementCount c0 ≤ 1 := hex0 (pr.2, c0) (mem_of_assocLookup hc0)
    omega
  refine ⟨?_, ?_, ?_⟩
  · intro pr' hpr'
    rcases mem_assocUpdate hpr' with hold | ⟨c, hcm, he⟩
    · exact hexc pr' hold
    · rw [he]
      have hlook : assocLookup pr.2 st.1.cards = some c :=
        assocLookup_eq_of_mem_nodup hndacc hcm
      have hcpl : c.played = c0.played := by
        have := hpl pr.2
        rw [hlook, hc0] at this
        exact Option.some.inj this
      rw [hc0played] at hcpl
      simp [exclusivePlacement, placementCount, dealUpd, hcpl]
  · intro e
    by_cases he : e = pr.2
    · subst he
      show (assocLookup pr.2 (assocUpdate pr.2 _ st.1.cards)).map
        (fun c => c.played) = _
      rw [assocLookup_update_self]
      rw [← hpl pr.2]
      cases assocLookup pr.2 st.1.cards with
      | none => rfl
      | some c => rfl
    · show (assocLookup e (assocUpdate pr.2 _ st.1.cards)).map
        (fun c => c.played) = _
      rw [assocLookup_update_ne _ _ _ _ he]
      exact hpl e
  · show (assocUpdate pr.2 _ st.1.cards).map Prod.fst = _
    rw [assocUpdate_keys]
    exact hkeys

theorem dealInv_pairs (w0 : World) (hex0 : worldExclusive w0)
    (hnd0 : (w0.cards.map Prod.fst).Nodup)
    (prs : List (Entity × Entity))
    (hdeck : ∀ pr ∈ prs, ∃ c0, assocLookup pr.2 w0.cards = some c0
      ∧ c0.inDeck.isSome = true) :
    ∀ st : World × List (Entity × Nat), DealInv w0 st.1 →
      DealInv w0 (prs.foldl applyDealPair st).1 := by
  induction prs with
  | nil => exact fun st h => h
  | cons pr rest ih =>
    intro st h
    rw [List.foldl_cons]
    exact ih (fun q hq => hdeck q (List.mem_cons_of_mem pr hq)) _
      (dealInv_pair w0 hex0 hnd0 st pr (hdeck pr (List.mem_cons_self pr rest)) h)

theorem dealInv_event (w0 : World) (hex0 : worldExclusive w0)
    (hnd0 : (w0.cards.map Prod.fst).Nodup)
    (st : World × List (Entity × Nat)) (ev : DealCardsEvent)
    (hInv : DealInv w0 st.1) : DealInv w0 (applyDealEvent w0 st ev).1 := by
  rw [applyDealEvent]
  cases hs : assocLookup ev.sessionId w0.sessions with
  | none => exact hInv
  | some s =>
    refine dealInv_pairs w0 hex0 hnd0 _ ?_ st hInv
    intro pr hpr
    have hsnd : pr.2 ∈ topCards w0 s := by
      obtain ⟨a, b⟩ := pr
      exact (List.of_mem_zip hpr).2
    obtain ⟨-, c, hc, hd⟩ := topCards_mem hsnd
    exact ⟨c, hc, hd⟩

theorem dealInv_events (w0 : World) (hex0 : worldExclusive w0)
    (hnd0 : (w0.cards.map Prod.fst).Nodup) (events : List DealCardsEvent) :
    ∀ st : World × List (Entity × Nat), DealInv w0 st.1 →
      DealInv w0 ((events.foldl (applyDealEvent w0) st).1) := by
  induction events with
  | nil => exact fun st h => h
  | cons ev rest ih =>
    intro st h
    rw [List.foldl_cons]
    exact ih _ (dealInv_event w0 hex0 hnd0 st ev h)

theorem shuffleSession_exclusive (w : World) (s : Session)
    (hw : worldExclusive w) : worldExclusive (shuffleBackInSession w s) := by
  refine foldSet_pred exclusivePlacement Prod.snd (fun ic => resetUpd ic.1)
    s.cardIds.enum w ?_ hw
  intro b _ c
  simp [exclusivePlacement, placementCount, resetUpd]

/-- C1: every operation that changes placement — spawning a deck, dealing
cards, moving all cards back into the deck — preserves the invariant that
each card carries at most one of the placement tags (`InDeck`, `InHand`,
`Played`; the reserved `InTakenTrick` tag has no component in the source and
can never be carried), from any state in which it holds. -/
theorem C1_placement_exclusivity_preserved :
    (∀ (th ch yi : ℚ) (w : World) (sid : Entity) (fresh : List Entity),
      worldExclusive w → worldExclusive (spawnDeck th ch yi w sid fresh))
    ∧ (∀ (w : World) (events : List DealCardsEvent),
      (w.cards.map Prod.fst).Nodup → worldExclusive w →
      worldExclusive (dealCards w events))
    ∧ (∀ w : World, worldExclusive w → worldExclusive (shuffleBackIn w)) := by
  refine ⟨?_, ?_, ?_⟩
  · intro th ch yi w sid fresh hw
    cases hsl : assocLookup sid w.sessions with
    | none =>
      simp only [spawnDeck, hsl]
      exact hw
    | some s =>
      cases htl : assocLookup s.tableId w.tables with
      | none =>
        simp only [spawnDeck, hsl, htl]
        exact hw
      | some tt =>
        simp only [spawnDeck, hsl, htl]
        intro pr hpr
        rcases List.mem_append.mp hpr with hold | hnew
        · exact hw pr hold
        · rcases List.mem_map.mp hnew with ⟨ic, _, he⟩
          rw [← he]
          simp [exclusivePlacement, placementCount, newCardState]
  · intro w events hnd hw
    cases events with
    | nil => exact hw
    | cons ev rest =>
      exact (dealInv_events w hw hnd (ev :: rest) (w, handSizes w)
        (dealInv_init w hw)).1
  · intro w hw
    rw [shuffleBackIn]
    have : ∀ (ss : List (Entity × Session)) (acc : World), worldExclusive acc →
        worldExclusive (ss.foldl (fun a s => shuffleBackInSession a s.2) acc) := by
      intro ss
      induction ss with
      | nil => exact fun acc h => h
      | cons hd tl ih =>
        intro acc h
        rw [List.foldl_cons]
        exact ih _ (shuffleSession_exclusive acc hd.2 h)
    exact this w.sessions w hw

theorem C1_witness :
    worldExclusive (spawnDeck 1 1 1 c10World 10 [30, 31, 32])
    ∧ worldExclusive (dealCards c2World [⟨10, [2]⟩])
    ∧ worldExclusive (shuffleBackIn c7World) :=
  ⟨C1_placement_exclusivity_preserved.1 1 1 1 c10World 10 [30, 31, 32]
      (of_decide_eq_true (by with_unfolding_all rfl)),
   C1_placement_exclusivity_preserved.2.1 c2World [⟨10, [2]⟩]
      (of_decide_eq_true (by with_unfolding_all rfl))
      (of_decide_eq_true (by with_unfolding_all rfl)),
   C1_placement_exclusivity_preserved.2.2 c7World
      (of_decide_eq_true (by with_unfolding_all rfl))⟩

/-! ### Claim C6: partial deals -/

theorem zip_map_fst_take {α β : Type} (l1 : List α) (l2 : List β) :
    (l1.zip l2).map Prod.fst = l1.take l2.length := by
  induction l1 generalizing l2 with
  | nil => simp
  | cons a as ih =>
    cases l2 with
    | nil => simp
    | cons b bs => simp [List.zip_cons_cons, ih]

theorem zip_map_snd_take {α β : Type} (l1 : List α) (l2 : List β) :
    (l1.zip l2).map Prod.snd = l2.take l1.length := by
  induction l1 generalizing l2 with
  | nil => simp
  | cons a as ih =>
    cases l2 with
    | nil => simp
    | cons b bs => simp [List.zip_cons_cons, ih]

theorem filterMap_fst_sublist {γ : Type}
    (f : Entity → Option (Entity × γ))
    (hf : ∀ a pr, f a = some pr → pr.1 = a) (l : List Entity) :
    ((l.filterMap f).map Prod.fst).Sublist l := by
  induction l with
  | nil => simp
  | cons a as ih =>
    rw [List.filterMap_cons]
    cases hfa : f a with
    | none => exact ih.cons a
    | some pr =>
      rw [List.map_cons]
      rw [hf a pr hfa]
      exact ih.cons₂ a

theorem deckYPairs_fst_sublist (w : World) (s : Session) :
    ((deckYPairs w s).map Prod.fst).Sublist s.cardIds := by
  refine filterMap_fst_sublist _ ?_ s.cardIds
  intro a pr hpr
  cases hla : assocLookup a w.cards with
  | none =>
    rw [hla] at hpr
    simp at hpr
  | some c =>
    rw [hla] at hpr
    have hpr2 : (if c.inDeck.isSome = true
        then some (a, c.transform.translation.y) else none) = some pr := hpr
    by_cases hd : c.inDeck.isSome
    · rw [if_pos hd] at hpr2
      rw [← Option.some.inj hpr2]
    · rw [if_neg hd] at hpr2
      simp at hpr2

theorem topCards_nodup (w : World) (s : Session) (hnd : s.cardIds.Nodup) :
    (topCards w s).Nodup := by
  have h1 : ((deckYPairs w s).map Prod.fst).Nodup :=
    (deckYPairs_fst_sublist w s).nodup hnd
  have h2 : ((sortByKey (fun py => truncQ (1000 * py.2))
      (deckYPairs w s)).reverse.map Prod.fst).Perm
      ((deckYPairs w s).map Prod.fst) :=
    ((List.reverse_perm _).trans (perm_sortByKey _ _)).map Prod.fst
  exact h2.nodup_iff.mpr h1

theorem dealPairs_lookup_not_mem (prs : List (Entity × Entity))
    (st : World × List (Entity × Nat)) (e : Entity)
    (h : ∀ q ∈ prs, q.2 ≠ e) :
    assocLookup e (prs.foldl applyDealPair st).1.cards
      = assocLookup e st.1.cards := by
  induction prs generalizing st with
  | nil => rfl
  | cons pr rest ih =>
    rw [List.foldl_cons]
    rw [ih _ (fun q hq => h q (List.mem_cons_of_mem pr hq))]
    exact assocLookup_update_ne pr.2 e _ st.1.cards
      (fun he => h pr (List.mem_cons_self pr rest) he.symm)

theorem dealPairs_lookup_mem (prs : List (Entity × Entity))
    (st : World × List (Entity × Nat)) (pr : Entity × Entity)
    (hpr : pr ∈ prs) (hnd : (prs.map Prod.snd).Nodup) :
    ∃ sz, assocLookup pr.2 (prs.foldl applyDealPair st).1.cards
      = (assocLookup pr.2 st.1.cards).map (dealUpd pr.1 sz) := by
  induction prs generalizing st with
  | nil => cases hpr
  | cons q rest ih =>
    have hnd' : q.2 ∉ rest.map Prod.snd ∧ (rest.map Prod.snd).Nodup := by
      rw [List.map_cons] at hnd
      exact List.nodup_cons.mp hnd
    rw [List.foldl_cons]
    rcases List.mem_cons.mp hpr with hq | hmem
    · subst hq
      have hnotin : ∀ x ∈ rest, x.2 ≠ pr.2 := by
        intro x hx he
        exact hnd'.1 (he ▸ List.mem_map_of_mem Prod.snd hx)
      rw [dealPairs_lookup_not_mem rest _ pr.2 hnotin]
      exact ⟨(assocLookup pr.1 st.2).getD 0, assocLookup_update_self pr.2 _ _⟩
    · have hne : q.2 ≠ pr.2 := by
        intro he
        exact hnd'.1 (he ▸ List.mem_map_of_mem Prod.snd hmem)
      obtain ⟨sz, hsz⟩ := ih (applyDealPair st q) hmem hnd'.2
      refine ⟨sz, ?_⟩
      rw [hsz]
      have : assocLookup pr.2 (applyDealPair st q).1.cards
          = assocLookup pr.2 st.1.cards :=
        assocLookup_update_ne q.2 pr.2 _ st.1.cards (fun he => hne he.symm)
      rw [this]

/-- C6: a deal request naming more players than the session's deck still
holds is served as a partial assignment — the zip truncates to the deck's
size, pairing the earliest-listed players with the available cards — the
insufficient-cards warning fires, and the rest of the batch of events is
still processed on top of the partial effect (no abort, no rollback). -/
theorem C6_partial_deal (w : World) (sid : Entity) (s : Session)
    (ev : DealCardsEvent) (rest : List DealCardsEvent)
    (hs : assocLookup sid w.sessions = some s) (hev : ev.sessionId = sid)
    (hnd : s.cardIds.Nodup)
    (hshort : (topCards w s).length < ev.playerIds.length) :
    insufficientWarn w ev = true
    ∧ (ev.playerIds.zip (topCards w s)).length = (topCards w s).length
    ∧ (ev.playerIds.zip (topCards w s)).map Prod.fst
        = ev.playerIds.take (topCards w s).length
    ∧ (∀ pr ∈ ev.playerIds.zip (topCards w s),
        ∃ c sz, assocLookup pr.2 w.cards = some c
          ∧ assocLookup pr.2 (dealCards w [ev]).cards
              = some (dealUpd pr.1 sz c))
    ∧ dealCards w (ev :: rest)
        = (rest.foldl (applyDealEvent w)
            (applyDealEvent w (w, handSizes w) ev)).1 := by
  refine ⟨?_, ?_, zip_map_fst_take _ _, ?_, rfl⟩
  · rw [insufficientWarn, hev, hs]
    exact decide_eq_true hshort
  · rw [List.length_zip]
    exact Nat.min_eq_right (Nat.le_of_lt hshort)
  · intro pr hpr
    have hsnd : pr.2 ∈ topCards w s := by
      obtain ⟨a, b⟩ := pr
      exact (List.of_mem_zip hpr).2
    obtain ⟨-, c, hc, -⟩ := topCards_mem hsnd
    have hndz : ((ev.playerIds.zip (topCards w s)).map Prod.snd).Nodup := by
      rw [zip_map_snd_take]
      exact (List.take_sublist _ _).nodup (topCards_nodup w s hnd)
    obtain ⟨sz, hsz⟩ := dealPairs_lookup_mem (ev.playerIds.zip (topCards w s))
      (w, handSizes w) pr hpr hndz
    refine ⟨c, sz, hc, ?_⟩
    have hred : dealCards w [ev]
        = ((ev.playerIds.zip (topCards w s)).foldl applyDealPair
            (w, handSizes w)).1 := by
      show (applyDealEvent w (w, handSizes w) ev).1 = _
      rw [applyDealEvent, hev, hs]
    rw [hred, hsz, hc]
    rfl

/-- A deal request for two players against a one-card deck. -/
theorem C6_witness :
    insufficientWarn c10World ⟨10, [2, 3]⟩ = true
    ∧ (([2, 3] : List Entity).zip (topCards c10World ⟨20, [2], [0]⟩)).length
        = (topCards c10World ⟨20, [2], [0]⟩).length
    ∧ (([2, 3] : List Entity).zip (topCards c10World ⟨20, [2], [0]⟩)).map
        Prod.fst = ([2, 3] : List Entity).take
          (topCards c10World ⟨20, [2], [0]⟩).length
    ∧ (∀ pr ∈ ([2, 3] : List Entity).zip (topCards c10World ⟨20, [2], [0]⟩),
        ∃ c sz, assocLookup pr.2 c10World.cards = some c
          ∧ assocLookup pr.2 (dealCards c10World [⟨10, [2, 3]⟩]).cards
              = some (dealUpd pr.1 sz c))
    ∧ dealCards c10World [⟨10, [2, 3]⟩]
        = (([] : List DealCardsEvent).foldl (applyDealEvent c10World)
            (applyDealEvent c10World (c10World, handSizes c10World)
              ⟨10, [2, 3]⟩)).1 :=
  C6_partial_deal c10World 10 ⟨20, [2], [0]⟩ ⟨10, [2, 3]⟩ [] (by decide) rfl
    (by decide) (of_decide_eq_true (by with_unfolding_all rfl))

/-! ### Claim C9: rest-state lemmas -/

theorem mem_deckQueryPairs {w : World} {s : Session} {cid : Entity}
    {cs : CardState} (h : (cid, cs) ∈ deckQueryPairs w s) :
    assocLookup cid w.cards = some cs ∧ cs.behaviour.isSome = true
      ∧ cs.inDeck.isSome = true := by
  rcases List.mem_filterMap.mp h with ⟨a, _, hf⟩
  cases hla : assocLookup a w.cards with
  | none =>
    rw [hla] at hf
    simp at hf
  | some c =>
    rw [hla] at hf
    have hf2 : (if (c.behaviour.isSome && c.inDeck.isSome) = true
        then some (a, c) else none) = some (cid, cs) := hf
    by_cases hcond : (c.behaviour.isSome && c.inDeck.isSome) = true
    · rw [if_pos hcond] at hf2
      have h1 : a = cid := congrArg Prod.fst (Option.some.inj hf2)
      have h2 : c = cs := congrArg Prod.snd (Option.some.inj hf2)
      subst h1
      subst h2
      obtain ⟨hb1, hb2⟩ := Bool.and_eq_true_iff.mp hcond
      exact ⟨hla, hb1, hb2⟩
    · rw [if_neg hcond] at hf2
      simp at hf2

theorem handQueryGet_some {w : World} {a : Entity} {c : CardState}
    (h : handQueryGet w a = some c) :
    assocLookup a w.cards = some c ∧ c.behaviour.isSome = true
      ∧ c.inHand.isSome = true ∧ c.owner.isSome = true := by
  unfold handQueryGet at h
  cases hla : assocLookup a w.cards with
  | none =>
    rw [hla] at h
    simp at h
  | some c0 =>
    rw [hla] at h
    have h2 : (if (c0.behaviour.isSome && c0.inHand.isSome && c0.owner.isSome)
        = true then some c0 else none) = some c := h
    by_cases hc : (c0.behaviour.isSome && c0.inHand.isSome && c0.owner.isSome)
        = true
    · rw [if_pos hc] at h2
      have h3 : c0 = c := Option.some.inj h2
      subst h3
      obtain ⟨hc1, hc3⟩ := Bool.and_eq_true_iff.mp hc
      obtain ⟨hc1a, hc1b⟩ := Bool.and_eq_true_iff.mp hc1
      exact ⟨rfl, hc1a, hc1b, hc3⟩
    · rw [if_neg hc] at h2
      simp at h2

theorem mem_handPairsFor {w : World} {s : Session} {p : Entity} {cid : Entity}
    {cs : CardState} (h : (cid, cs) ∈ handPairsFor w s p) :
    assocLookup cid w.cards = some cs ∧ cs.behaviour.isSome = true
      ∧ cs.inHand.isSome = true ∧ cs.owner = some p := by
  have h' := mem_sortByKey.mp h
  rcases List.mem_filterMap.mp h' with ⟨a, _, hf⟩
  cases hq : handQueryGet w a with
  | none =>
    rw [hq] at hf
    simp at hf
  | some c =>
    rw [hq] at hf
    have hf2 : (if (c.owner == some p) = true then some (a, c) else none)
        = some (cid, cs) := hf
    by_cases hcond : (c.owner == some p) = true
    · rw [if_pos hcond] at hf2
      have h1 : a = cid := congrArg Prod.fst (Option.some.inj hf2)
      have h2 : c = cs := congrArg Prod.snd (Option.some.inj hf2)
      subst h1
      subst h2
      obtain ⟨hla, hb, hih, -⟩ := handQueryGet_some hq
      exact ⟨hla, hb, hih, beq_iff_eq.mp hcond⟩
    · rw [if_neg hcond] at hf2
      simp at hf2

theorem deckSession_sleeping (P : SolverParams) (w : World) (s : Session)
    (e : Entity) (c : CardState) (hc : assocLookup e w.cards = some c)
    (hsl : c.sleeping = true) :
    assocLookup e (deckSolverSession P w s).cards = some c := by
  have hnotin : ∀ b ∈ deckToPosition w s, id b ≠ e := by
    intro b hb he
    rcases List.mem_map.mp hb with ⟨pc, hpc, hfst⟩
    have hfilter := List.mem_filter.mp hpc
    have hmem := mem_sortByKey.mp hfilter.1
    obtain ⟨a2, c2⟩ := pc
    have hchar := mem_deckQueryPairs hmem
    have ha : a2 = e := hfst.trans he
    rw [ha] at hchar
    rw [hc] at hchar
    have hc2 : c2 = c := (Option.some.inj hchar.1).symm
    have hpred := hfilter.2
    rw [hc2] at hpred
    obtain ⟨hns, -⟩ := Bool.and_eq_true_iff.mp hpred
    rw [hsl] at hns
    simp at hns
  unfold deckSolverSession
  split
  · exact hc
  · split
    · exact hc
    next bc hbc =>
      show assocLookup e (foldSet id
        (fun _ => deckPositionCard P
          ((assocLookup s.tableId w.tables).map (fun x => x.transform))
          bc.transform)
        (deckToPosition w s) w).cards = some c
      rw [foldSet_lookup_not_mem id _ (deckToPosition w s) w e hnotin]
      exact hc

theorem deckSolver_sleeping (P : SolverParams) (w : World) (e : Entity)
    (c : CardState) (hc : assocLookup e w.cards = some c)
    (hsl : c.sleeping = true) :
    assocLookup e (deckSolver P w).cards = some c := by
  rw [deckSolver]
  have hgen : ∀ (ss : List (Entity × Session)) (acc : World),
      assocLookup e acc.cards = some c →
      assocLookup e (ss.foldl (fun a s2 => deckSolverSession P a s2.2) acc).cards
        = some c := by
    intro ss
    induction ss with
    | nil => exact fun acc h => h
    | cons hd tl ih =>
      intro acc h
      rw [List.foldl_cons]
      exact ih _ (deckSession_sleeping P acc hd.2 e c h hsl)
  exact hgen w.sessions w hc

theorem handPlayer_sleeping (P : SolverParams) (w : World) (s : Session)
    (p : Entity) (e : Entity) (c : CardState)
    (hc : assocLookup e w.cards = some c) (hsl : c.sleeping = true) :
    assocLookup e (handSolverPlayer P w s p).cards = some c := by
  have hnotin : ∀ b ∈ handToPosition w s p, id b ≠ e := by
    intro b hb he
    rcases List.mem_map.mp hb with ⟨pc, hpc, hfst⟩
    have hfilter := List.mem_filter.mp hpc
    obtain ⟨a2, c2⟩ := pc
    have hchar := mem_handPairsFor hfilter.1
    have ha : a2 = e := hfst.trans he
    rw [ha] at hchar
    rw [hc] at hchar
    have hc2 : c2 = c := (Option.some.inj hchar.1).symm
    have hpred := hfilter.2
    rw [hc2] at hpred
    obtain ⟨hns, -⟩ := Bool.and_eq_true_iff.mp hpred
    rw [hsl] at hns
    simp at hns
  unfold handSolverPlayer
  split
  · exact hc
  next ps hps =>
    split
    · exact hc
    next lId l0 tl hpairs =>
      split
      · exact hc
      next lc hlc =>
        show assocLookup e (foldSet id
          (fun _ => handPositionCard P ps.transform lc.transform)
          (handToPosition w s p) w).cards = some c
        rw [foldSet_lookup_not_mem id _ (handToPosition w s p) w e hnotin]
        exact hc

theorem handSession_sleeping (P : SolverParams) (w : World) (s : Session)
    (e : Entity) (c : CardState) (hc : assocLookup e w.cards = some c)
    (hsl : c.sleeping = true) :
    assocLookup e (handSolverSession P w s).cards = some c := by
  rw [handSolverSession]
  have hgen : ∀ (pls : List Entity) (acc : World),
      assocLookup e acc.cards = some c →
      assocLookup e (pls.foldl (fun a pId => handSolverPlayer P a s pId)
        acc).cards = some c := by
    intro pls
    induction pls with
    | nil => exact fun acc h => h
    | cons hd tl ih =>
      intro acc h
      rw [List.foldl_cons]
      exact ih _ (handPlayer_sleeping P acc s hd e c h hsl)
  exact hgen s.playerIds w hc

theorem handSolver_sleeping (P : SolverParams) (w : World) (e : Entity)
    (c : CardState) (hc : assocLookup e w.cards = some c)
    (hsl : c.sleeping = true) :
    assocLookup e (handSolver P w).cards = some c := by
  rw [handSolver]
  have hgen : ∀ (ss : List (Entity × Session)) (acc : World),
      assocLookup e acc.cards = some c →
      assocLookup e (ss.foldl (fun a s2 => handSolverSession P a s2.2)
        acc).cards = some c := by
    intro ss
    induction ss with
    | nil => exact fun acc h => h
    | cons hd tl ih =>
      intro acc h
      rw [List.foldl_cons]
      exact ih _ (handSession_sleeping P acc hd.2 e c h hsl)
  exact hgen w.sessions w hc

theorem deckPositionCard_rest (P : SolverParams) (tm : Option Transform)
    (bSnap : Transform) (c : CardState) (i : Nat) (dr : Vec3 × Quat)
    (hi : c.inDeck = some i) (hdr : deckDesired P tm bSnap i = some dr)
    (hp : 99 / 100 ≤ travelProgress P (c.travelStart.getD P.now)) :
    (deckPositionCard P tm bSnap c).sleeping = true
    ∧ (deckPositionCard P tm bSnap c).travelStart = none := by
  have hred : deckPositionCard P tm bSnap c = interpolateCard P dr.1 dr.2 c := by
    unfold deckPositionCard
    rw [hi]
    show (match deckDesired P tm bSnap i with
      | none => c
      | some dr2 => interpolateCard P dr2.1 dr2.2 c)
      = interpolateCard P dr.1 dr.2 c
    rw [hdr]
  rw [hred]
  simp only [interpolateCard]
  rw [if_pos hp]
  exact ⟨rfl, rfl⟩

theorem handPositionCard_rest (P : SolverParams) (pT lS : Transform)
    (c : CardState) (i : Nat) (hi : c.inHand = some i)
    (hp : 99 / 100 ≤ travelProgress P (c.travelStart.getD P.now)) :
    (handPositionCard P pT lS c).sleeping = true
    ∧ (handPositionCard P pT lS c).travelStart = none := by
  have hred : handPositionCard P pT lS c
      = interpolateCard P (handDesired P pT lS i).1 (handDesired P pT lS i).2 c := by
    unfold handPositionCard
    rw [hi]
  rw [hred]
  simp only [interpolateCard]
  rw [if_pos hp]
  exact ⟨rfl, rfl⟩

theorem foldSet_lookup_prop {β : Type} (Pr : CardState → Prop)
    (idf : β → Entity) (uf : β → CardState → CardState) (l : List β)
    (w : World) (e : Entity) (hf : ∀ b ∈ l, ∀ c, Pr (uf b c))
    (he : e ∈ l.map idf) :
    ∀ c', assocLookup e (foldSet idf uf l w).cards = some c' → Pr c' := by
  induction l generalizing w with
  | nil => simp at he
  | cons b bs ih =>
    rw [foldSet, List.foldl_cons, ← foldSet]
    by_cases hmem : e ∈ bs.map idf
    · exact ih _ (fun x hx => hf x (List.mem_cons_of_mem b hx)) hmem
    · have heb : idf b = e := by
        rcases List.mem_map.mp he with ⟨x, hx, hxe⟩
        rcases List.mem_cons.mp hx with hxb | hxbs
        · rw [hxb] at hxe
          exact hxe
        · exact absurd (hxe ▸ List.mem_map_of_mem idf hxbs) hmem
      intro c' hc'
      rw [foldSet_lookup_not_mem idf uf bs _ e
        (fun x hx hxe => hmem (hxe ▸ List.mem_map_of_mem idf hx))] at hc'
      rw [← heb] at hc'
      have hupd : (setCard w (idf b) (uf b)).cards
          = assocUpdate (idf b) (uf b) w.cards := rfl
      rw [hupd, assocLookup_update_self] at hc'
      cases hl : assocLookup (idf b) w.cards with
      | none =>
        rw [hl] at hc'
        simp at hc'
      | some c0 =>
        rw [hl] at hc'
        have : uf b c0 = c' := Option.some.inj hc'
        rw [← this]
        exact hf b (List.mem_cons_self b bs) c0

theorem dealPairs_sleeping_false (prs : List (Entity × Entity))
    (st : World × List (Entity × Nat)) (e : Entity)
    (he : e ∈ prs.map Prod.snd) :
    ∀ c', assocLookup e (prs.foldl applyDealPair st).1.cards = some c' →
      c'.sleeping = false := by
  induction prs generalizing st with
  | nil => simp at he
  | cons q rest ih =>
    rw [List.foldl_cons]
    by_cases hmem : e ∈ rest.map Prod.snd
    · exact ih _ hmem
    · have heb : q.2 = e := by
        rcases List.mem_map.mp he with ⟨x, hx, hxe⟩
        rcases List.mem_cons.mp hx with hxb | hxbs
        · rw [hxb] at hxe
          exact hxe
        · exact absurd (hxe ▸ List.mem_map_of_mem Prod.snd hxbs) hmem
      intro c' hc'
      rw [dealPairs_lookup_not_mem rest _ e
        (fun x hx hxe => hmem (hxe ▸ List.mem_map_of_mem Prod.snd hx))] at hc'
      rw [← heb] at hc'
      have hupd : (applyDealPair st q).1.cards
          = assocUpdate q.2 (dealUpd q.1 ((assocLookup q.1 st.2).getD 0))
              st.1.cards := rfl
      rw [hupd, assocLookup_update_self] at hc'
      cases hl : assocLookup q.2 st.1.cards with
      | none =>
        rw [hl] at hc'
        simp at hc'
      | some c0 =>
        rw [hl] at hc'
        rw [← Option.some.inj hc']
        rfl

theorem motionTicks_sleeping (ps : List SolverParams) (w : World) (e : Entity)
    (c : CardState) (hc : assocLookup e w.cards = some c)
    (hsl : c.sleeping = true) :
    ∃ c', assocLookup e (motionTicks ps w).cards = some c'
      ∧ c'.transform = c.transform ∧ c'.sleeping = true := by
  induction ps generalizing w c with
  | nil => exact ⟨c, hc, rfl, hsl⟩
  | cons P rest ih =>
    have hdb : assocLookup e (determineBehaviours w).cards
        = some (classifyUpd c) := by
      show assocLookup e (w.cards.map (fun ec => (ec.1, classifyUpd ec.2)))
        = some (classifyUpd c)
      rw [assocLookup_mapVal, hc]
      rfl
    have hsl2 : (classifyUpd c).sleeping = true := hsl
    have h1 := deckSolver_sleeping P _ e _ hdb hsl2
    have h2 := handSolver_sleeping P _ e _ h1 hsl2
    obtain ⟨c', hc', htr, hsl'⟩ := ih _ _ h2 hsl2
    exact ⟨c', hc', htr.trans rfl, hsl'⟩

/-- C9: (a) the solvers never touch a resting card's state; (b) a positioned
card whose interpolation progress reaches 0.99 loses its travel marker and
gains the rest marker; (c) the rest marker is cleared by dealing, by the
reset, and by the wake request; (d) consequently a resting card's pose is
unchanged by any number of quiet ticks (classifier + deck solver + hand
solver). -/
theorem C9_rest_state :
    (∀ (P : SolverParams) (w : World) (e : Entity) (c : CardState),
      assocLookup e w.cards = some c → c.sleeping = true →
      assocLookup e (deckSolver P w).cards = some c
      ∧ assocLookup e (handSolver P w).cards = some c)
    ∧ (∀ (P : SolverParams) (tm : Option Transform) (bSnap : Transform)
        (c : CardState) (i : Nat) (dr : Vec3 × Quat),
      c.inDeck = some i → deckDesired P tm bSnap i = some dr →
      99 / 100 ≤ travelProgress P (c.travelStart.getD P.now) →
      (deckPositionCard P tm bSnap c).sleeping = true
      ∧ (deckPositionCard P tm bSnap c).travelStart = none)
    ∧ (∀ (P : SolverParams) (pT lS : Transform) (c : CardState) (i : Nat),
      c.inHand = some i →
      99 / 100 ≤ travelProgress P (c.travelStart.getD P.now) →
      (handPositionCard P pT lS c).sleeping = true
      ∧ (handPositionCard P pT lS c).travelStart = none)
    ∧ (∀ (w : World) (e : Entity) (c : CardState),
      assocLookup e w.cards = some c →
      assocLookup e (wakeAll w).cards = some { c with sleeping := false })
    ∧ (∀ (w : World) (s : Session) (cid : Entity), cid ∈ s.cardIds →
      ∀ c', assocLookup cid (shuffleBackInSession w s).cards = some c' →
      c'.sleeping = false)
    ∧ (∀ (w : World) (ev : DealCardsEvent) (s : Session),
      assocLookup ev.sessionId w.sessions = some s →
      ∀ pr ∈ ev.playerIds.zip (topCards w s), ∀ c',
      assocLookup pr.2 (dealCards w [ev]).cards = some c' →
      c'.sleeping = false)
    ∧ (∀ (ps : List SolverParams) (w : World) (e : Entity) (c : CardState),
      assocLookup e w.cards = some c → c.sleeping = true →
      ∃ c', assocLookup e (motionTicks ps w).cards = some c'
        ∧ c'.transform = c.transform ∧ c'.sleeping = true) := by
  refine ⟨?_, ?_, ?_, ?_, ?_, ?_, ?_⟩
  · intro P w e c hc hsl
    exact ⟨deckSolver_sleeping P w e c hc hsl,
      handSolver_sleeping P w e c hc hsl⟩
  · intro P tm bSnap c i dr hi hdr hp
    exact deckPositionCard_rest P tm bSnap c i dr hi hdr hp
  · intro P pT lS c i hi hp
    exact handPositionCard_rest P pT lS c i hi hp
  · intro w e c hc
    have hmv := assocLookup_mapVal
      (fun c0 => { c0 with sleeping := false }) e w.cards
    rw [hc] at hmv
    exact hmv
  · intro w s cid hcid c' hc'
    refine foldSet_lookup_prop (fun c => c.sleeping = false) Prod.snd
      (fun ic => resetUpd ic.1) s.cardIds.enum w cid ?_ ?_ c' hc'
    · intro b _ c0
      rfl
    · rw [List.enum_map_snd]
      exact hcid
  · intro w ev s hs pr hpr c' hc'
    have he : pr.2 ∈ (ev.playerIds.zip (topCards w s)).map Prod.snd :=
      List.mem_map_of_mem Prod.snd hpr
    refine dealPairs_sleeping_false (ev.playerIds.zip (topCards w s))
      (w, handSizes w) pr.2 he c' ?_
    have hred : dealCards w [ev]
        = ((ev.playerIds.zip (topCards w s)).foldl applyDealPair
            (w, handSizes w)).1 := by
      show (applyDealEvent w (w, handSizes w) ev).1 = _
      rw [applyDealEvent, hs]
    rw [← hred]
    exact hc'
  · intro ps w e c hc hsl
    exact motionTicks_sleeping ps w e c hc hsl

/-- A resting in-deck card for the C9 witness world. -/
def c9Card : CardState :=
  { card := ⟨Suit.Spades, Rank.Ace⟩, inDeck := some 1, inHand := none,
    played := false, trump := false, owner := none, sleeping := true,
    behaviour := some CardPositioningBehaviour.InDeck, travelStart := none,
    transform := idTf }

/-- One sleeping card on a table. -/
def c9World : World :=
  { cards := [(4, c9Card)], sessions := [(1, c8Session)],
    tables := [(0, ⟨idTf, true, some 1⟩)], players := [(2, ⟨idTf, false⟩)] }

theorem C9_witness :
    (assocLookup 4 (deckSolver c8P c9World).cards = some c9Card
      ∧ assocLookup 4 (handSolver c8P c9World).cards = some c9Card)
    ∧ assocLookup 4 (wakeAll c9World).cards
        = some { c9Card with sleeping := false }
    ∧ (∃ c', assocLookup 4 (motionTicks [c8P, c8P] c9World).cards = some c'
        ∧ c'.transform = c9Card.transform ∧ c'.sleeping = true) := by
  refine ⟨C9_rest_state.1 c8P c9World 4 c9Card (by decide) rfl, ?_, ?_⟩
  · exact C9_rest_state.2.2.2.1 c9World 4 c9Card (by decide)
  · exact C9_rest_state.2.2.2.2.2.2 [c8P, c8P] c9World 4 c9Card (by decide) rfl

/-! ### Claim C8: amended deck-solver theorem -/

theorem deckQueryPairs_fst_sublist (w : World) (s : Session) :
    ((deckQueryPairs w s).map Prod.fst).Sublist s.cardIds := by
  refine filterMap_fst_sublist _ ?_ s.cardIds
  intro a pr hpr
  cases hla : assocLookup a w.cards with
  | none =>
    rw [hla] at hpr
    simp at hpr
  | some c =>
    rw [hla] at hpr
    have hpr2 : (if (c.behaviour.isSome && c.inDeck.isSome) = true
        then some (a, c) else none) = some pr := hpr
    by_cases hd : (c.behaviour.isSome && c.inDeck.isSome) = true
    · rw [if_pos hd] at hpr2
      rw [← Option.some.inj hpr2]
    · rw [if_neg hd] at hpr2
      simp at hpr2

theorem deckToPosition_nodup (w : World) (s : Session)
    (hnd : s.cardIds.Nodup) : (deckToPosition w s).Nodup := by
  have h1 : ((deckQueryPairs w s).map Prod.fst).Nodup :=
    (deckQueryPairs_fst_sublist w s).nodup hnd
  have h2 : ((deckSorted w s).map Prod.fst).Nodup := by
    have hperm : ((deckSorted w s).map Prod.fst).Perm
        ((deckQueryPairs w s).map Prod.fst) :=
      (perm_sortByKey _ _).map Prod.fst
    exact hperm.nodup_iff.mpr h1
  have h3 : (((deckSorted w s).filter (fun pc =>
      !pc.2.sleeping && pc.2.behaviour
        == some CardPositioningBehaviour.InDeck)).map Prod.fst).Sublist
      ((deckSorted w s).map Prod.fst) :=
    (List.filter_sublist _).map Prod.fst
  exact h3.nodup h2

theorem deckSolverSession_eq (P : SolverParams) (w : World) (s : Session)
    (bId : Entity) (b0 : CardState) (rest : List (Entity × CardState))
    (bc : CardState) (hsort : deckSorted w s = (bId, b0) :: rest)
    (hbc : assocLookup bId w.cards = some bc) :
    deckSolverSession P w s = foldSet id
      (fun _ => deckPositionCard P
        ((assocLookup s.tableId w.tables).map (fun x => x.transform))
        bc.transform)
      (deckToPosition w s) w := by
  unfold deckSolverSession
  rw [hsort]
  show (match assocLookup bId w.cards with
    | none => w
    | some bc2 => foldSet id
        (fun _ => deckPositionCard P
          ((assocLookup s.tableId w.tables).map
            (fun x : TableState => x.transform))
          bc2.transform)
        (deckToPosition w s) w) = _
  rw [hbc]

/-- C8 (amended): per session, the deck solver snapshots the transform of the
bottom card — the lowest-index card carrying an `InDeck` tag and a
positioning behaviour — and gives each repositioned card the per-card update
relative to that snapshot: a card of stacking index 0 is targeted at the
table surface offset, while a card of any other index (including the bottom
card itself when no index-0 card remains) is targeted at the bottom
snapshot's position raised by `index * stackStep` with the snapshot's
rotation. -/
theorem C8_deck_targets (P : SolverParams) (w : World) (s : Session)
    (bId : Entity) (b0 : CardState) (rest : List (Entity × CardState))
    (hsort : deckSorted w s = (bId, b0) :: rest)
    (bc : CardState) (hbc : assocLookup bId w.cards = some bc)
    (hnd : s.cardIds.Nodup)
    (cid : Entity) (hcid : cid ∈ deckToPosition w s)
    (c : CardState) (hc : assocLookup cid w.cards = some c)
    (i : Nat) (hi : c.inDeck = some i) :
    (∀ pc ∈ deckQueryPairs w s, b0.inDeck.getD 0 ≤ pc.2.inDeck.getD 0)
    ∧ assocLookup cid (deckSolverSession P w s).cards
        = some (deckPositionCard P
            ((assocLookup s.tableId w.tables).map (fun x => x.transform))
            bc.transform c)
    ∧ (i ≠ 0 → deckDesired P
          ((assocLookup s.tableId w.tables).map (fun x => x.transform))
          bc.transform i
        = some (bc.transform.translation.add
            (Vec3.yUp ((i : ℚ) * stackStep)), bc.transform.rotation))
    ∧ (∀ tt, assocLookup s.tableId w.tables = some tt → i = 0 →
        deckDesired P
          ((assocLookup s.tableId w.tables).map (fun x => x.transform))
          bc.transform i
        = some (tt.transform.translation.add
            (Vec3.yUp (P.tableHalfHeight + P.cardHalfY)), Quat.ident)) := by
  refine ⟨?_, ?_, ?_, ?_⟩
  · intro pc hpc
    have hsorted : (deckSorted w s).Pairwise (fun x y =>
        ((x.2.inDeck.getD 0 : Nat) : Int) ≤ ((y.2.inDeck.getD 0 : Nat) : Int)) :=
      sorted_sortByKey _ (deckQueryPairs w s)
    rw [hsort] at hsorted
    have hmem : pc ∈ (bId, b0) :: rest := by
      rw [← hsort]
      exact mem_sortByKey.mpr hpc
    rcases List.mem_cons.mp hmem with hh | hh
    · rw [hh]
    · have := (List.pairwise_cons.mp hsorted).1 pc hh
      exact_mod_cast this
  · rw [deckSolverSession_eq P w s bId b0 rest bc hsort hbc]
    have hndl : ((deckToPosition w s).map id).Nodup := by
      rw [List.map_id]
      exact deckToPosition_nodup w s hnd
    have hfm := foldSet_lookup_mem id
      (fun _ => deckPositionCard P
        ((assocLookup s.tableId w.tables).map (fun x => x.transform))
        bc.transform)
      (deckToPosition w s) w cid hcid hndl
    simp only [id_eq] at hfm
    rw [hfm, hc]
    rfl
  · intro hne
    cases i with
    | zero => exact absurd rfl hne
    | succ n => rfl
  · intro tt htt hz
    subst hz
    show (match (assocLookup s.tableId w.tables).map (fun x => x.transform) with
      | none => none
      | some tT => some (tT.translation.add
          (Vec3.yUp (P.tableHalfHeight + P.cardHalfY)), Quat.ident))
      = some (tt.transform.translation.add
          (Vec3.yUp (P.tableHalfHeight + P.cardHalfY)), Quat.ident)
    rw [htt]
    rfl

theorem C8_witness :
    (∀ pc ∈ deckQueryPairs c8World c8Session,
      c8Card.inDeck.getD 0 ≤ pc.2.inDeck.getD 0)
    ∧ assocLookup 4 (deckSolverSession c8P c8World c8Session).cards
        = some (deckPositionCard c8P
            ((assocLookup c8Session.tableId c8World.tables).map
              (fun x => x.transform))
            c8Card.transform c8Card)
    ∧ ((1 : Nat) ≠ 0 → deckDesired c8P
          ((assocLookup c8Session.tableId c8World.tables).map
            (fun x => x.transform))
          c8Card.transform 1
        = some (c8Card.transform.translation.add
            (Vec3.yUp ((1 : ℚ) * stackStep)), c8Card.transform.rotation))
    ∧ (∀ tt, assocLookup c8Session.tableId c8World.tables = some tt →
        (1 : Nat) = 0 → deckDesired c8P
          ((assocLookup c8Session.tableId c8World.tables).map
            (fun x => x.transform))
          c8Card.transform 1
        = some (tt.transform.translation.add
            (Vec3.yUp (c8P.tableHalfHeight + c8P.cardHalfY)), Quat.ident)) :=
  C8_deck_targets c8P c8World c8Session 4 c8Card []
    (of_decide_eq_true (by with_unfolding_all rfl)) c8Card
    (of_decide_eq_true (by with_unfolding_all rfl))
    (by decide) 4
    (of_decide_eq_true (by with_unfolding_all rfl)) c8Card
    (of_decide_eq_true (by with_unfolding_all rfl)) 1 rfl

/-! ### Claim C4: support lemmas -/

theorem pushEntry_keys_mem {m : List (Entity × List Card)} {p : Entity}
    {c : Card} {q : Entity} :
    q ∈ (pushEntry m p c).map Prod.fst ↔ q ∈ m.map Prod.fst ∨ q = p := by
  induction m with
  | nil => simp [pushEntry]
  | cons hd tl ih =>
    obtain ⟨a, cs⟩ := hd
    by_cases ha : a = p
    · subst ha
      have hred : pushEntry ((a, cs) :: tl) a c = (a, cs ++ [c]) :: tl := by
        show (if a = a then (a, cs ++ [c]) :: tl
          else (a, cs) :: pushEntry tl a c) = _
        rw [if_pos rfl]
      rw [hred]
      simp only [List.map_cons, List.mem_cons]
      tauto
    · have hred : pushEntry ((a, cs) :: tl) p c
          = (a, cs) :: pushEntry tl p c := by
        show (if a = p then (a, cs ++ [c]) :: tl
          else (a, cs) :: pushEntry tl p c) = _
        rw [if_neg ha]
      rw [hred]
      simp only [List.map_cons, List.mem_cons]
      rw [ih]
      tauto

theorem pushEntry_keys_nodup {m : List (Entity × List Card)} {p : Entity}
    {c : Card} (h : (m.map Prod.fst).Nodup) :
    ((pushEntry m p c).map Prod.fst).Nodup := by
  induction m with
  | nil => simp [pushEntry]
  | cons hd tl ih =>
    obtain ⟨a, cs⟩ := hd
    rw [List.map_cons] at h
    have h' := List.nodup_cons.mp h
    by_cases ha : a = p
    · subst ha
      have hred : pushEntry ((a, cs) :: tl) a c = (a, cs ++ [c]) :: tl := by
        show (if a = a then (a, cs ++ [c]) :: tl
          else (a, cs) :: pushEntry tl a c) = _
        rw [if_pos rfl]
      rw [hred, List.map_cons]
      exact List.nodup_cons.mpr h'
    · have hred : pushEntry ((a, cs) :: tl) p c
          = (a, cs) :: pushEntry tl p c := by
        show (if a = p then (a, cs ++ [c]) :: tl
          else (a, cs) :: pushEntry tl p c) = _
        rw [if_neg ha]
      rw [hred, List.map_cons]
      refine List.nodup_cons.mpr ⟨?_, ih h'.2⟩
      intro hmem
      rcases pushEntry_keys_mem.mp hmem with hh | hh
      · exact h'.1 hh
      · exact ha hh

theorem cbpStep_keys {w : World} {m : List (Entity × List Card)}
    {cid : Entity} {q : Entity} (h : q ∈ (cbpStep w m cid).map Prod.fst) :
    q ∈ m.map Prod.fst
    ∨ ∃ c, assocLookup cid w.cards = some c ∧ c.inHand.isSome = true
        ∧ c.owner = some q := by
  unfold cbpStep at h
  cases hla : assocLookup cid w.cards with
  | none =>
    rw [hla] at h
    exact Or.inl h
  | some c =>
    rw [hla] at h
    have h2 : q ∈ (if c.inHand.isSome = true then
        (match c.owner with
          | some p => pushEntry m p c.card
          | none => m)
      else m).map Prod.fst := h
    by_cases hih : c.inHand.isSome = true
    · rw [if_pos hih] at h2
      cases how : c.owner with
      | none =>
        rw [how] at h2
        exact Or.inl h2
      | some p =>
        rw [how] at h2
        rcases pushEntry_keys_mem.mp h2 with hh | hh
        · exact Or.inl hh
        · exact Or.inr ⟨c, rfl, hih, hh ▸ how⟩
    · rw [if_neg hih] at h2
      exact Or.inl h2

theorem cbpStep_keys_nodup {w : World} {m : List (Entity × List Card)}
    {cid : Entity} (h : (m.map Prod.fst).Nodup) :
    ((cbpStep w m cid).map Prod.fst).Nodup := by
  unfold cbpStep
  cases assocLookup cid w.cards with
  | none => exact h
  | some c =>
    show ((if c.inHand.isSome = true then
        (match c.owner with
          | some p => pushEntry m p c.card
          | none => m)
      else m).map Prod.fst).Nodup
    by_cases hih : c.inHand.isSome = true
    · rw [if_pos hih]
      cases c.owner with
      | none => exact h
      | some p => exact pushEntry_keys_nodup h
    · rw [if_neg hih]
      exact h

theorem cardsByPlayer_keys (w : World) (s : Session) (q : Entity)
    (h : q ∈ (cardsByPlayer w s).map Prod.fst) :
    ∃ cid ∈ s.cardIds, ∃ c, assocLookup cid w.cards = some c
      ∧ c.inHand.isSome = true ∧ c.owner = some q := by
  rw [cardsByPlayer] at h
  have hgen : ∀ (l : List Entity) (m0 : List (Entity × List Card)),
      q ∈ (l.foldl (cbpStep w) m0).map Prod.fst →
      q ∈ m0.map Prod.fst
      ∨ ∃ cid ∈ l, ∃ c, assocLookup cid w.cards = some c
          ∧ c.inHand.isSome = true ∧ c.owner = some q := by
    intro l
    induction l with
    | nil => exact fun m0 h0 => Or.inl h0
    | cons cid rest ih =>
      intro m0 h0
      rw [List.foldl_cons] at h0
      rcases ih (cbpStep w m0 cid) h0 with hh | ⟨cid2, hc2, hrest⟩
      · rcases cbpStep_keys hh with hm | ⟨c, hc, hih, how⟩
        · exact Or.inl hm
        · exact Or.inr ⟨cid, List.mem_cons_self cid rest, c, hc, hih, how⟩
      · exact Or.inr ⟨cid2, List.mem_cons_of_mem cid hc2, hrest⟩
  rcases hgen s.cardIds [] h with hh | hh
  · simp at hh
  · exact hh

theorem cardsByPlayer_keys_nodup (w : World) (s : Session) :
    ((cardsByPlayer w s).map Prod.fst).Nodup := by
  rw [cardsByPlayer]
  have hgen : ∀ (l : List Entity) (m0 : List (Entity × List Card)),
      (m0.map Prod.fst).Nodup →
      ((l.foldl (cbpStep w) m0).map Prod.fst).Nodup := by
    intro l
    induction l with
    | nil => exact fun m0 h0 => h0
    | cons cid rest ih =>
      intro m0 h0
      rw [List.foldl_cons]
      exact ih _ (cbpStep_keys_nodup h0)
  exact hgen s.cardIds [] (by simp)

theorem listMax_eq_none {l : List Nat} (h : listMax l = none) : l = [] := by
  cases l with
  | nil => rfl
  | cons a as =>
    exfalso
    have h2 : (match listMax as with
      | none => some a
      | some m2 => some (max a m2)) = none := h
    cases hm : listMax as with
    | none =>
      rw [hm] at h2
      exact Option.noConfusion h2
    | some m2 =>
      rw [hm] at h2
      exact Option.noConfusion h2

theorem listMax_le {l : List Nat} {m : Nat} (h : listMax l = some m) :
    ∀ x ∈ l, x ≤ m := by
  induction l generalizing m with
  | nil => simp [listMax] at h
  | cons a as ih =>
    have h2 : (match listMax as with
      | none => some a
      | some m2 => some (max a m2)) = some m := h
    intro x hx
    cases hm : listMax as with
    | none =>
      rw [hm] at h2
      have ha : a = m := Option.some.inj h2
      rcases List.mem_cons.mp hx with hh | hh
      · omega
      · rw [listMax_eq_none hm] at hh
        simp at hh
    | some m2 =>
      rw [hm] at h2
      have ha : max a m2 = m := Option.some.inj h2
      rcases List.mem_cons.mp hx with hh | hh
      · omega
      · have := ih hm x hh
        omega

theorem listMax_mem {l : List Nat} {m : Nat} (h : listMax l = some m) :
    m ∈ l := by
  induction l generalizing m with
  | nil => simp [listMax] at h
  | cons a as ih =>
    have h2 : (match listMax as with
      | none => some a
      | some m2 => some (max a m2)) = some m := h
    cases hm : listMax as with
    | none =>
      rw [hm] at h2
      rw [← Option.some.inj h2]
      exact List.mem_cons_self a as
    | some m2 =>
      rw [hm] at h2
      have ha : max a m2 = m := Option.some.inj h2
      rcases Nat.le_total a m2 with hle | hle
      · have hmx : max a m2 = m2 := Nat.max_eq_right hle
        rw [← ha, hmx]
        exact List.mem_cons_of_mem a (ih hm)
      · have hmx : max a m2 = a := Nat.max_eq_left hle
        rw [← ha, hmx]
        exact List.mem_cons_self a as

theorem listMax_isSome {l : List Nat} (h : l ≠ []) :
    ∃ m, listMax l = some m := by
  cases l with
  | nil => exact absurd rfl h
  | cons a as =>
    show ∃ m, (match listMax as with
      | none => some a
      | some m2 => some (max a m2)) = some m
    cases listMax as with
    | none => exact ⟨a, rfl⟩
    | some m2 => exact ⟨max a m2, rfl⟩

theorem nodup_all_eq_singleton {α : Type} {l : List α} {a : α}
    (hnd : l.Nodup) (hmem : a ∈ l) (hall : ∀ x ∈ l, x = a) : l = [a] := by
  cases l with
  | nil => simp at hmem
  | cons x xs =>
    have hx : x = a := hall x (List.mem_cons_self x xs)
    subst hx
    cases xs with
    | nil => rfl
    | cons y ys =>
      have hy : y = x := hall y (List.mem_cons_of_mem x (List.mem_cons_self y ys))
      have := (List.nodup_cons.mp hnd).1
      rw [← hy] at this
      exact absurd (List.mem_cons_self y ys) this

theorem mem_keys_of_assocLookup {α : Type} {k : Entity} {v : α}
    {l : List (Entity × α)} (h : assocLookup k l = some v) :
    k ∈ l.map Prod.fst :=
  List.mem_map_of_mem Prod.fst (mem_of_assocLookup h)

theorem playerValues_lookup (w : World) (s : Session) (p : Entity) :
    assocLookup p (playerValues w s)
      = (assocLookup p (cardsByPlayer w s)).map
          (fun cs => (cs.map (fun c => c.rank.value)).sum) := by
  unfold playerValues
  exact assocLookup_mapVal (fun cs => (cs.map (fun c => c.rank.value)).sum) p
    (cardsByPlayer w s)

theorem mapVal_keys {α β : Type} (g : α → β) (l : List (Entity × α)) :
    (l.map (fun ec => (ec.1, g ec.2))).map Prod.fst = l.map Prod.fst := by
  induction l with
  | nil => rfl
  | cons hd tl ih => simp [ih]

/-- C4 (amended): for a session with at least two players whose table still
needs a dealer, in which every player holds at least one card and every
in-hand card's owner is one of the session's players: if exactly one player
attains the maximum hand score, the needs-dealer flag is cleared and that
player alone is marked Dealer with no request emitted; if two distinct
players tie at the maximum, the world is unchanged and exactly one deal
request is issued, addressed to exactly the players attaining the maximum. -/
theorem C4_dealer_selection (w : World) (t : Entity) (ts : TableState)
    (sid : Entity) (s : Session)
    (htab : w.tables = [(t, ts)])
    (hneed : ts.needsDealer = true)
    (href : ts.sessionRef = some sid)
    (hs : assocLookup sid w.sessions = some s)
    (htid : s.tableId = t)
    (hp2 : 2 ≤ s.playerIds.length)
    (howners : ∀ cid ∈ s.cardIds, ∀ c, assocLookup cid w.cards = some c →
      c.inHand.isSome = true → ∀ q, c.owner = some q → q ∈ s.playerIds)
    (hhas : ∀ p ∈ s.playerIds, ∃ cs,
      assocLookup p (cardsByPlayer w s) = some cs ∧ cs ≠ [])
    (hplayers : ∀ p ∈ s.playerIds, ∃ ps, assocLookup p w.players = some ps) :
    (∀ p, p ∈ s.playerIds →
      (∀ q ∈ s.playerIds, q ≠ p → playerScore w s q < playerScore w s p) →
      ((assocLookup t (tablesNeedingDealer w).1.tables).map
          (fun t2 => t2.needsDealer) = some false
        ∧ (∃ ps, assocLookup p w.players = some ps
            ∧ assocLookup p (tablesNeedingDealer w).1.players
              = some { ps with dealer := true })
        ∧ (tablesNeedingDealer w).2 = []))
    ∧ (∀ p1 p2, p1 ∈ s.playerIds → p2 ∈ s.playerIds → p1 ≠ p2 →
      playerScore w s p2 = playerScore w s p1 →
      (∀ q ∈ s.playerIds, playerScore w s q ≤ playerScore w s p1) →
      ((tablesNeedingDealer w).1 = w
        ∧ ∃ evps, (tablesNeedingDealer w).2 = [⟨sid, evps⟩]
          ∧ ∀ q, q ∈ evps ↔ (q ∈ s.playerIds
              ∧ playerScore w s q = playerScore w s p1))) := by
  have hkeysnd := cardsByPlayer_keys_nodup w s
  have hscore : ∀ p ∈ s.playerIds,
      assocLookup p (playerValues w s) = some (playerScore w s p) := by
    intro p hp
    obtain ⟨cs, hcs, -⟩ := hhas p hp
    rw [playerValues_lookup, hcs, playerScore, hcs]
    rfl
  have hkeysub : ∀ q ∈ (cardsByPlayer w s).map Prod.fst, q ∈ s.playerIds := by
    intro q hq
    obtain ⟨cid, hcid, c2, hc2, hih, how⟩ := cardsByPlayer_keys w s q hq
    exact howners cid hcid c2 hc2 hih q how
  have hpv : ∀ qv ∈ playerValues w s,
      qv.1 ∈ s.playerIds ∧ qv.2 = playerScore w s qv.1 := by
    intro qv hqv
    rcases List.mem_map.mp hqv with ⟨pcs, hpcs, he⟩
    have hq1 : qv.1 = pcs.1 := by rw [← he]
    have hkey : pcs.1 ∈ (cardsByPlayer w s).map Prod.fst :=
      List.mem_map_of_mem Prod.fst hpcs
    have hl : assocLookup pcs.1 (cardsByPlayer w s) = some pcs.2 :=
      assocLookup_eq_of_mem_nodup hkeysnd (Prod.mk.eta ▸ hpcs)
    refine ⟨hq1 ▸ hkeysub _ hkey, ?_⟩
    rw [hq1, ← he]
    show (pcs.2.map (fun c => c.rank.value)).sum = playerScore w s pcs.1
    rw [playerScore, hl]
    rfl
  have hnoc : noCardsInHand w s = [] := by
    rw [noCardsInHand]
    rw [List.filter_eq_nil]
    intro p hp
    obtain ⟨cs, hcs, hne⟩ := hhas p hp
    rw [hcs]
    simp [hne]
  obtain ⟨p0, hp0⟩ : ∃ p0, p0 ∈ s.playerIds := by
    cases hpl : s.playerIds with
    | nil =>
      rw [hpl] at hp2
      simp at hp2
    | cons a as => exact ⟨a, hpl ▸ List.mem_cons_self a as⟩
  have hpvne : playerValues w s ≠ [] := by
    intro hemp
    have := hscore p0 hp0
    rw [hemp] at this
    simp [assocLookup] at this
  obtain ⟨m, hm⟩ := listMax_isSome
    (l := (playerValues w s).map (·.2))
    (fun hemp => hpvne (List.map_eq_nil.mp hemp))
  have hmub : ∀ q ∈ s.playerIds, playerScore w s q ≤ m := by
    intro q hq
    have hsc := hscore q hq
    have hmem : playerScore w s q ∈ (playerValues w s).map (·.2) :=
      List.mem_map_of_mem _ (mem_of_assocLookup hsc)
    exact listMax_le hm _ hmem
  have hmatt : ∃ q ∈ s.playerIds, playerScore w s q = m := by
    rcases List.mem_map.mp (listMax_mem hm) with ⟨qv, hqv, he⟩
    obtain ⟨hq1, hq2⟩ := hpv qv hqv
    exact ⟨qv.1, hq1, by rw [← hq2, he]⟩
  have hred : tablesNeedingDealer w = dealerStepTable w (w, []) ts := by
    rw [tablesNeedingDealer, htab]
    simp [hneed]
  have hstep : dealerStepTable w (w, []) ts
      = (match dealerWinners w s m with
        | [p] =>
          ({ w with
              tables := assocUpdate s.tableId
                (fun t2 => { t2 with needsDealer := false }) w.tables,
              players := assocUpdate p
                (fun pl => { pl with dealer := true }) w.players },
           ([] : List DealCardsEvent))
        | _ => (w, [⟨sid, dealerWinners w s m⟩])) := by
    simp only [dealerStepTable, href, hs]
    rw [if_neg (by omega : ¬ s.playerIds.length < 2)]
    rw [hnoc]
    rw [if_neg (by simp : ¬ (List.isEmpty ([] : List Entity) = false))]
    rw [hm]
    rfl
  have hpvkeys : (playerValues w s).map Prod.fst
      = (cardsByPlayer w s).map Prod.fst := by
    rw [playerValues]
    exact mapVal_keys (fun cs => (cs.map (fun c => c.rank.value)).sum)
      (cardsByPlayer w s)
  have hpvnd : (playerValues w s).Nodup := by
    refine List.Nodup.of_map Prod.fst ?_
    rw [hpvkeys]
    exact hkeysnd
  constructor
  · intro p hp hmaxs
    have hmp : m = playerScore w s p := by
      obtain ⟨q, hq, hqm⟩ := hmatt
      by_cases hqp : q = p
      · rw [← hqm, hqp]
      · have h1 := hmaxs q hq hqp
        have h2 := hmub p hp
        omega
    have hwin : dealerWinners w s m = [p] := by
      have hmem : ((p, m) : Entity × Nat)
          ∈ (playerValues w s).filter (fun qv => qv.2 == m) := by
        rw [List.mem_filter]
        refine ⟨?_, by simp⟩
        have hsc := hscore p hp
        rw [← hmp] at hsc
        exact mem_of_assocLookup hsc
      have hall : ∀ x ∈ (playerValues w s).filter (fun qv => qv.2 == m),
          x = ((p, m) : Entity × Nat) := by
        intro x hx
        have hxf := List.mem_filter.mp hx
        obtain ⟨hx1, hx2⟩ := hpv x hxf.1
        have hxm : x.2 = m := by simpa using hxf.2
        by_cases hxp : x.1 = p
        · have hxe : x = (x.1, x.2) := Prod.mk.eta.symm
          rw [hxe, hxp, hxm]
        · exfalso
          have h1 := hmaxs x.1 hx1 hxp
          rw [hx2] at hxm
          omega
      have hfilnd : ((playerValues w s).filter (fun qv => qv.2 == m)).Nodup :=
        hpvnd.filter _
      have hsing := nodup_all_eq_singleton hfilnd hmem hall
      rw [dealerWinners, hsing]
      rfl
    rw [hred, hstep, hwin]
    refine ⟨?_, ?_, rfl⟩
    · show (assocLookup t (assocUpdate s.tableId
        (fun t2 => { t2 with needsDealer := false }) w.tables)).map
          (fun t2 => t2.needsDealer) = some false
      rw [htid, assocLookup_update_self, htab]
      rw [show assocLookup t [(t, ts)] = some ts from by simp [assocLookup]]
      rfl
    · obtain ⟨ps, hps⟩ := hplayers p hp
      refine ⟨ps, hps, ?_⟩
      show assocLookup p (assocUpdate p
        (fun pl => { pl with dealer := true }) w.players)
        = some { ps with dealer := true }
      rw [assocLookup_update_self, hps]
      rfl
  · intro p1 p2 hp1 hp2 hne heq hub
    have hmp : m = playerScore w s p1 := by
      obtain ⟨q, hq, hqm⟩ := hmatt
      have h1 := hub q hq
      have h2 := hmub p1 hp1
      omega
    have hwmem : ∀ q, q ∈ dealerWinners w s m
        ↔ (q ∈ s.playerIds ∧ playerScore w s q = m) := by
      intro q
      constructor
      · intro hq
        rcases List.mem_map.mp hq with ⟨qv, hqv, he⟩
        have hf := List.mem_filter.mp hqv
        obtain ⟨h1, h2⟩ := hpv qv hf.1
        have h3 : qv.2 = m := by simpa using hf.2
        refine ⟨he ▸ h1, ?_⟩
        rw [← he, ← h2]
        exact h3
      · intro hqm
        have hsc := hscore q hqm.1
        have hmm : ((q, playerScore w s q) : Entity × Nat)
            ∈ playerValues w s := mem_of_assocLookup hsc
        have hmf : ((q, playerScore w s q) : Entity × Nat)
            ∈ (playerValues w s).filter (fun qv => qv.2 == m) :=
          List.mem_filter.mpr ⟨hmm, by simp [hqm.2]⟩
        exact List.mem_map_of_mem _ hmf
    have hw1 : p1 ∈ dealerWinners w s m := (hwmem p1).mpr ⟨hp1, hmp.symm⟩
    have hw2 : p2 ∈ dealerWinners w s m :=
      (hwmem p2).mpr ⟨hp2, heq.trans hmp.symm⟩
    rw [hred, hstep]
    rcases hwl : dealerWinners w s m with _ | ⟨a, rest⟩
    · rw [hwl] at hw1
      simp at hw1
    · rcases rest with _ | ⟨b, rest2⟩
      · rw [hwl] at hw1 hw2
        simp at hw1 hw2
        exact absurd (hw1.trans hw2.symm) hne
      · refine ⟨rfl, a :: b :: rest2, rfl, ?_⟩
        intro q
        rw [← hwl, hwmem q, hmp]

def c4bSession : Session := ⟨20, [2, 3], [100, 101]⟩

/-- Two players: entity 2 holds a King (13), entity 3 a Five (5). -/
def c4bWorld : World :=
  { cards := [(100, handCardOf Rank.King 2 0), (101, handCardOf Rank.Five 3 0)],
    sessions := [(10, c4bSession)],
    tables := [(20, ⟨idTf, true, some 10⟩)],
    players := [(2, ⟨idTf, false⟩), (3, ⟨idTf, false⟩)] }

theorem C4_witness :
    (assocLookup 20 (tablesNeedingDealer c4bWorld).1.tables).map
        (fun t2 => t2.needsDealer) = some false
    ∧ (∃ ps, assocLookup 2 c4bWorld.players = some ps
        ∧ assocLookup 2 (tablesNeedingDealer c4bWorld).1.players
          = some { ps with dealer := true })
    ∧ (tablesNeedingDealer c4bWorld).2 = [] := by
  refine (C4_dealer_selection c4bWorld 20 ⟨idTf, true, some 10⟩ 10 c4bSession
    rfl rfl rfl rfl rfl (by decide) ?_ ?_ ?_).1 2 (by decide) ?_
  · intro cid hcid c hc hih q how
    simp only [c4bSession, List.mem_cons, List.not_mem_nil, or_false] at hcid
    rcases hcid with h1 | h1 <;> subst h1
    · have hl : assocLookup 100 c4bWorld.cards
          = some (handCardOf Rank.King 2 0) := rfl
      rw [hl] at hc
      have hc2 := (Option.some.inj hc).symm
      subst hc2
      have hq2 : q = 2 := (Option.some.inj how).symm
      subst hq2
      decide
    · have hl : assocLookup 101 c4bWorld.cards
          = some (handCardOf Rank.Five 3 0) := rfl
      rw [hl] at hc
      have hc2 := (Option.some.inj hc).symm
      subst hc2
      have hq3 : q = 3 := (Option.some.inj how).symm
      subst hq3
      decide
  · intro p hp
    simp only [c4bSession, List.mem_cons, List.not_mem_nil, or_false] at hp
    rcases hp with h1 | h1 <;> subst h1
    · exact ⟨[⟨Suit.Hearts, Rank.King⟩], rfl, by decide⟩
    · exact ⟨[⟨Suit.Hearts, Rank.Five⟩], rfl, by decide⟩
  · intro p hp
    simp only [c4bSession, List.mem_cons, List.not_mem_nil, or_false] at hp
    rcases hp with h1 | h1 <;> subst h1
    · exact ⟨⟨idTf, false⟩, rfl⟩
    · exact ⟨⟨idTf, false⟩, rfl⟩
  · intro q hq hqn
    simp only [c4bSession, List.mem_cons, List.not_mem_nil, or_false] at hq
    rcases hq with h1 | h1 <;> subst h1
    · exact absurd rfl hqn
    · decide

def idxOf (w : World) (cid : Entity) : Nat :=
  ((assocLookup cid w.cards).bind (fun c => c.inDeck)).getD 0

theorem insertByKey_map {α β : Type} (k1 : α → Int) (k2 : β → Int)
    (h : α → β) (a : α) (l : List α)
    (hcmp : ∀ b ∈ l, (k1 a ≤ k1 b ↔ k2 (h a) ≤ k2 (h b))) :
    insertByKey k2 (h a) (l.map h) = (insertByKey k1 a l).map h := by
  induction l with
  | nil => rfl
  | cons b bs ih =>
    show (if k2 (h a) ≤ k2 (h b) then h a :: h b :: bs.map h
        else h b :: insertByKey k2 (h a) (bs.map h))
      = (if k1 a ≤ k1 b then a :: b :: bs else b :: insertByKey k1 a bs).map h
    have hc := hcmp b (List.mem_cons_self b bs)
    by_cases hab : k1 a ≤ k1 b
    · rw [if_pos hab, if_pos (hc.mp hab), List.map_cons, List.map_cons]
    · rw [if_neg hab, if_neg (fun h2 => hab (hc.mpr h2)), List.map_cons]
      rw [ih (fun x hx => hcmp x (List.mem_cons_of_mem b hx))]

theorem sortByKey_map {α β : Type} (k1 : α → Int) (k2 : β → Int)
    (h : α → β) (l : List α)
    (hcmp : ∀ a ∈ l, ∀ b ∈ l, (k1 a ≤ k1 b ↔ k2 (h a) ≤ k2 (h b))) :
    sortByKey k2 (l.map h) = (sortByKey k1 l).map h := by
  induction l with
  | nil => rfl
  | cons a as ih =>
    show insertByKey k2 (h a) (sortByKey k2 (as.map h))
      = (insertByKey k1 a (sortByKey k1 as)).map h
    rw [ih (fun x hx y hy =>
      hcmp x (List.mem_cons_of_mem a hx) y (List.mem_cons_of_mem a hy))]
    exact insertByKey_map k1 k2 h a (sortByKey k1 as)
      (fun b hb => hcmp a (List.mem_cons_self a as) b
        (List.mem_cons_of_mem a (mem_sortByKey.mp hb)))

theorem topCardsSpec_pairs (w : World) (s : Session) :
    (s.cardIds.filterMap (fun cid =>
      match assocLookup cid w.cards with
      | none => none
      | some c =>
        match c.inDeck with
        | some i => some (cid, i)
        | none => none))
    = (deckYPairs w s).map (fun py => (py.1, idxOf w py.1)) := by
  rw [deckYPairs, List.map_filterMap]
  apply List.filterMap_congr
  intro cid _
  cases hla : assocLookup cid w.cards with
  | none => rfl
  | some c =>
    cases hdk : c.inDeck with
    | none =>
      show (match c.inDeck with
          | some i => some (cid, i)
          | none => none)
        = (if c.inDeck.isSome = true
            then some (cid, c.transform.translation.y) else none).map
          (fun py => (py.1, idxOf w py.1))
      rw [hdk]
      rfl
    | some i =>
      show (match c.inDeck with
          | some i => some (cid, i)
          | none => none)
        = (if c.inDeck.isSome = true
            then some (cid, c.transform.translation.y) else none).map
          (fun py => (py.1, idxOf w py.1))
      rw [hdk]
      show some (cid, i) = some (cid, idxOf w cid)
      rw [idxOf, hla]
      show some (cid, i) = some (cid, c.inDeck.getD 0)
      rw [hdk]
      rfl

theorem map_fst_map_pair {γ : Type} (g : Entity → γ) (l : List (Entity × ℚ)) :
    ((l.map (fun py => (py.1, g py.1))).reverse).map
        (fun pc : Entity × γ => pc.1)
      = (l.reverse).map (fun py : Entity × ℚ => py.1) := by
  induction l with
  | nil => rfl
  | cons a as ih => simp [List.reverse_cons, List.map_append, ih]

theorem canonKey (base : ℚ) (hb : 0 ≤ base) (i : Nat) :
    truncQ (1000 * (base + (i : ℚ) / 100)) = ⌊(1000 : ℚ) * base⌋ + 10 * (i : ℤ) := by
  have hi : (0 : ℚ) ≤ (i : ℚ) / 100 := by positivity
  have h0 : (0 : ℚ) ≤ 1000 * (base + (i : ℚ) / 100) := by linarith
  rw [truncQ, if_pos h0]
  have he : (1000 : ℚ) * (base + (i : ℚ) / 100)
      = 1000 * base + ((10 * (i : ℤ) : ℤ) : ℚ) := by
    push_cast
    ring
  rw [he, Int.floor_add_int]

theorem dealPairs_inDeck (prs : List (Entity × Entity))
    (st : World × List (Entity × Nat)) (cid : Entity) (c' : CardState)
    (h : assocLookup cid (prs.foldl applyDealPair st).1.cards = some c')
    (hd : c'.inDeck.isSome = true) :
    assocLookup cid st.1.cards = some c' := by
  induction prs generalizing st with
  | nil => exact h
  | cons pr rest ih =>
    rw [List.foldl_cons] at h
    have h1 := ih _ h
    by_cases he : pr.2 = cid
    · subst he
      have h2 : (assocLookup pr.2 st.1.cards).map
          (dealUpd pr.1 ((assocLookup pr.1 st.2).getD 0)) = some c' := by
        rw [← assocLookup_update_self pr.2 _ st.1.cards]
        exact h1
      rcases Option.map_eq_some'.mp h2 with ⟨c0, _, he2⟩
      exfalso
      rw [← he2] at hd
      simp [dealUpd] at hd
    · rw [← assocLookup_update_ne pr.2 cid
        (dealUpd pr.1 ((assocLookup pr.1 st.2).getD 0)) st.1.cards
        (fun h2 => he h2.symm)]
      exact h1

theorem dealEvent_inDeck (w0 : World) (st : World × List (Entity × Nat))
    (ev : DealCardsEvent) (cid : Entity) (c' : CardState)
    (h : assocLookup cid (applyDealEvent w0 st ev).1.cards = some c')
    (hd : c'.inDeck.isSome = true) :
    assocLookup cid st.1.cards = some c' := by
  rw [applyDealEvent] at h
  cases hs : assocLookup ev.sessionId w0.sessions with
  | none =>
    rw [hs] at h
    exact h
  | some s =>
    rw [hs] at h
    exact dealPairs_inDeck _ _ _ _ h hd

theorem dealEvents_inDeck (w0 : World) (evs : List DealCardsEvent)
    (st : World × List (Entity × Nat)) (cid : Entity) (c' : CardState)
    (h : assocLookup cid (evs.foldl (applyDealEvent w0) st).1.cards = some c')
    (hd : c'.inDeck.isSome = true) :
    assocLookup cid st.1.cards = some c' := by
  induction evs generalizing st with
  | nil => exact h
  | cons ev rest ih =>
    rw [List.foldl_cons] at h
    exact dealEvent_inDeck w0 st ev cid c' (ih _ h) hd

/-- C2 (amended): the distributor orders the deck by quantised physical
height, not by stacking index; but whenever every in-deck card of the
session rests at its canonical stacked height `base + index / 100` with
`0 ≤ base`, the height order coincides with the stacking-index order, so
the computed top-of-deck sequence equals the spec's index-descending
sequence; moreover dealing leaves every card still carrying `InDeck`
afterwards completely untouched, so the indices (and relative order) of the
cards remaining in the deck never change. -/
theorem C2_top_by_height (w : World) (s : Session) (base : ℚ)
    (hb : 0 ≤ base)
    (hcanon : ∀ cid ∈ s.cardIds, ∀ c, assocLookup cid w.cards = some c →
      ∀ i, c.inDeck = some i →
        c.transform.translation.y = base + (i : ℚ) / 100) :
    topCards w s = topCardsSpec w s
    ∧ (∀ evs cid c',
        assocLookup cid (dealCards w evs).cards = some c' →
        c'.inDeck.isSome = true → assocLookup cid w.cards = some c') := by
  constructor
  · have hkey : ∀ py ∈ deckYPairs w s,
        truncQ (1000 * py.2) = ⌊(1000 : ℚ) * base⌋ + 10 * (idxOf w py.1 : ℤ) := by
      intro py hpy
      obtain ⟨cid, y⟩ := py
      obtain ⟨hmem, c, hc, hds, hy⟩ := mem_deckYPairs hpy
      rcases Option.isSome_iff_exists.mp hds with ⟨i, hdk⟩
      have hyc := hcanon cid hmem c hc i hdk
      have hidx : idxOf w cid = i := by
        rw [idxOf, hc]
        show c.inDeck.getD 0 = i
        rw [hdk]
        rfl
      show truncQ (1000 * y) = _
      rw [hy, hyc, hidx]
      exact canonKey base hb i
    have hcmp : ∀ a ∈ deckYPairs w s, ∀ b ∈ deckYPairs w s,
        (truncQ (1000 * a.2) ≤ truncQ (1000 * b.2)
          ↔ ((fun pc : Entity × Nat => (pc.2 : Int))
              ((fun py => (py.1, idxOf w py.1)) a)
            ≤ (fun pc : Entity × Nat => (pc.2 : Int))
              ((fun py => (py.1, idxOf w py.1)) b))) := by
      intro a ha b hb2
      rw [hkey a ha, hkey b hb2]
      show _ ↔ ((idxOf w a.1 : Int) ≤ (idxOf w b.1 : Int))
      omega
    have e1 : sortByKey (fun pc : Entity × Nat => (pc.2 : Int))
        ((deckYPairs w s).map (fun py => (py.1, idxOf w py.1)))
        = (sortByKey (fun py : Entity × ℚ => truncQ (1000 * py.2))
            (deckYPairs w s)).map (fun py => (py.1, idxOf w py.1)) :=
      sortByKey_map _ _ _ _ hcmp
    calc topCards w s
        = ((sortByKey (fun py : Entity × ℚ => truncQ (1000 * py.2))
            (deckYPairs w s)).reverse).map (fun py : Entity × ℚ => py.1) := rfl
      _ = (((sortByKey (fun py : Entity × ℚ => truncQ (1000 * py.2))
            (deckYPairs w s)).map (fun py => (py.1, idxOf w py.1))).reverse).map
              (fun pc : Entity × Nat => pc.1) :=
          (map_fst_map_pair (fun cid => idxOf w cid) _).symm
      _ = ((sortByKey (fun pc : Entity × Nat => (pc.2 : Int))
            ((deckYPairs w s).map (fun py => (py.1, idxOf w py.1)))).reverse).map
              (fun pc : Entity × Nat => pc.1) := by
          rw [e1]
      _ = topCardsSpec w s :=
          (congrArg (fun t =>
            ((sortByKey (fun pc : Entity × Nat => (pc.2 : Int)) t).reverse).map
              (fun pc : Entity × Nat => pc.1)) (topCardsSpec_pairs w s)).symm
  · intro evs cid c' h hd
    cases evs with
    | nil => exact h
    | cons ev rest =>
      exact dealEvents_inDeck w (ev :: rest) (w, handSizes w) cid c' h hd

def c2cSession : Session := ⟨0, [], [0, 1]⟩

/-- Two deck cards at their canonical stacked heights over base 0. -/
def c2cWorld : World :=
  { cards := [(0, deckCardAt 0 0), (1, deckCardAt 1 (1 / 100))],
    sessions := [(2, c2cSession)],
    tables := [], players := [] }

theorem C2_witness :
    topCards c2cWorld c2cSession = topCardsSpec c2cWorld c2cSession
    ∧ topCards c2cWorld c2cSession = [1, 0] := by
  refine ⟨(C2_top_by_height c2cWorld c2cSession 0 le_rfl ?_).1,
    of_decide_eq_true (by with_unfolding_all rfl)⟩
  intro cid hcid c hc i hi
  simp only [c2cSession, List.mem_cons, List.not_mem_nil, or_false] at hcid
  rcases hcid with h1 | h1 <;> subst h1
  · have hl : assocLookup 0 c2cWorld.cards = some (deckCardAt 0 0) := rfl
    rw [hl] at hc
    have hc2 := (Option.some.inj hc).symm
    subst hc2
    have hi0 : i = 0 := (Option.some.inj hi).symm
    subst hi0
    exact of_decide_eq_true (by with_unfolding_all rfl)
  · have hl : assocLookup 1 c2cWorld.cards = some (deckCardAt 1 (1 / 100)) := rfl
    rw [hl] at hc
    have hc2 := (Option.some.inj hc).symm
    subst hc2
    have hi1 : i = 1 := (Option.some.inj hi).symm
    subst hi1
    exact of_decide_eq_true (by with_unfolding_all rfl)

end Poche
